import Mathlib

/-!
Verification development for the streamlit SQL-mapping dashboard.

The repository's core logic rewrites identifiers in SQL text with
case-insensitive, word-boundary-delimited regular expressions
(`src/sql_mapping_dashboard.py`, `src/Streamlit_Dashboard.py`).  We model
text as `List Char` (with `String` wrappers), Python's `re` word
characters (`\w`, ASCII model: alphanumerics plus underscore), and the
left-to-right, non-overlapping match-and-replace discipline of `re.sub`,
`re.subn`, `re.findall` and `re.search`.  Lookarounds inspect the
original string, as in Python.  Scanners take a fuel argument (the
length of the scanned text suffices) so that they are structural and
kernel-computable.
-/

namespace SqlDash

/-- Python regex `\w` (ASCII model): letters, digits, underscore. -/
def isWordChar (c : Char) : Bool := c.isAlphanum || c == '_'

/-- Python `\s` whitespace class (ASCII model). -/
def isPySpace (c : Char) : Bool :=
  c == ' ' || c == '\t' || c == '\n' || c == '\r' || c == '\x0b' || c == '\x0c'

/-- Case-insensitive character comparison, as under `re.IGNORECASE` (ASCII model). -/
def eqCI (a b : Char) : Bool := a.toLower == b.toLower

/-- Word-character test lifted to the optional character just outside a match
(string boundaries count as non-word). -/
def wordB : Option Char → Bool
  | some c => isWordChar c
  | none => false

/-- `startsWithCI pat s`: the literal `pat` matches a prefix of `s` case-insensitively. -/
def startsWithCI : List Char → List Char → Bool
  | [], _ => true
  | _ :: _, [] => false
  | p :: ps, c :: cs => eqCI p c && startsWithCI ps cs

/-- Lowercasing of a character list (for case-insensitive name comparison). -/
def lowerL (l : List Char) : List Char := l.map Char.toLower

/-- Match of the pattern `\b<old>\b` (with `old` a regex-escaped literal) at the
current position: `prev` is the character just before the position, `s` the
suffix starting at it.  `\b` holds where word-ness flips, boundaries counting
as non-word; both lookaround characters are read from the original string. -/
def tokHere (old : List Char) (prev : Option Char) (s : List Char) : Bool :=
  if old.isEmpty then
    wordB prev != wordB s.head?
  else
    startsWithCI old s &&
    (wordB prev != wordB s.head?) &&
    (wordB ((s.take old.length).getLast?) != wordB ((s.drop old.length).head?))

/-- Match of the lookaround pattern `(?<!\w)<old>(?!\w)` at the current position. -/
def tokHereNW (old : List Char) (prev : Option Char) (s : List Char) : Bool :=
  startsWithCI old s && !(wordB prev) && !(wordB ((s.drop old.length).head?))

/-- `re.search` for `\b<old>\b`: is there a match anywhere in `s`, with `prev`
the character before `s` (none at string start)? -/
def hasTokFrom (old : List Char) : Option Char → List Char → Bool
  | prev, [] => tokHere old prev []
  | prev, c :: rest => tokHere old prev (c :: rest) || hasTokFrom old (some c) rest

/-- `re.search` for `(?<!\w)<old>(?!\w)` anywhere in `s`. -/
def hasTokNWFrom (old : List Char) : Option Char → List Char → Bool
  | prev, [] => tokHereNW old prev []
  | prev, c :: rest => tokHereNW old prev (c :: rest) || hasTokNWFrom old (some c) rest

/-- Worker for `re.sub(rf'\b{old}\b', new, s, flags=re.IGNORECASE)`: leftmost,
non-overlapping scan over the input; replacement text inserted verbatim;
scanning resumes after the matched region of the input.  On a zero-width match
(empty `old`) the engine emits the replacement and advances one character. -/
def subGo (old new : List Char) : Nat → Option Char → List Char → List Char
  | 0, _, s => s
  | _ + 1, _, [] => []
  | fuel + 1, prev, c :: rest =>
    if tokHere old prev (c :: rest) then
      if old.isEmpty then
        new ++ c :: subGo old new fuel (some c) rest
      else
        new ++ subGo old new fuel (((c :: rest).take old.length).getLast?)
          ((c :: rest).drop old.length)
    else
      c :: subGo old new fuel (some c) rest

/-- Worker for `re.subn`: same scan as `subGo`, also counting the substitutions
performed. -/
def subnGo (old new : List Char) : Nat → Option Char → List Char → List Char × Nat
  | 0, _, s => (s, 0)
  | _ + 1, _, [] => ([], 0)
  | fuel + 1, prev, c :: rest =>
    if tokHere old prev (c :: rest) then
      if old.isEmpty then
        let r := subnGo old new fuel (some c) rest
        (new ++ c :: r.1, r.2 + 1)
      else
        let r := subnGo old new fuel (((c :: rest).take old.length).getLast?)
          ((c :: rest).drop old.length)
        (new ++ r.1, r.2 + 1)
    else
      let r := subnGo old new fuel (some c) rest
      (c :: r.1, r.2)

/-- Worker for `re.findall(rf'\b{old}\b', s, re.IGNORECASE)`: the list of
matched substrings, found by the same leftmost non-overlapping scan. -/
def findallGo (old : List Char) : Nat → Option Char → List Char → List (List Char)
  | 0, _, _ => []
  | _ + 1, _, [] => []
  | fuel + 1, prev, c :: rest =>
    if tokHere old prev (c :: rest) then
      if old.isEmpty then
        [] :: findallGo old fuel (some c) rest
      else
        ((c :: rest).take old.length) ::
          findallGo old fuel (((c :: rest).take old.length).getLast?)
            ((c :: rest).drop old.length)
    else
      findallGo old fuel (some c) rest

/-!
### The alias-qualified column pattern

`_apply_column_mappings` rewrites `rf'\b([a-zA-Z_]\w*)\.{old_col}\b'` to
`rf'\1.{new_col}'` (IGNORECASE).  A match can only start at the beginning of a
maximal word run whose first character is a letter or underscore (a `\b`
cannot occur inside a word run), the greedy `\w*` takes the whole run (any
shorter split would put a word character where `\.` must match), then the
literal dot, the old column name case-insensitively, and a closing `\b`.
-/

/-- Attempted match of `\b([a-zA-Z_]\w*)\.<old>\b` at the current position;
returns the total matched length on success. -/
def aliasHere (old : List Char) (prev : Option Char) (s : List Char) : Option Nat :=
  match s.head? with
  | none => none
  | some c =>
    if !(wordB prev) && (c.isAlpha || c == '_') then
      let ali := s.takeWhile isWordChar
      let rest1 := s.drop ali.length
      match rest1.head? with
      | some d =>
        if d = '.' then
          let rest2 := rest1.drop 1
          if startsWithCI old rest2 &&
              (wordB ((rest2.take old.length).getLast?) !=
                wordB ((rest2.drop old.length).head?)) then
            some (ali.length + 1 + old.length)
          else none
        else none
      | none => none
    else none

/-- Worker for the alias substitution `re.sub(alias_replace_pattern, rf'\1.{new}', s)`:
the captured alias is kept, the dot re-emitted, the column name replaced. -/
def aliasSubGo (old new : List Char) : Nat → Option Char → List Char → List Char
  | 0, _, s => s
  | _ + 1, _, [] => []
  | fuel + 1, prev, c :: rest =>
    match aliasHere old prev (c :: rest) with
    | some L =>
      ((c :: rest).takeWhile isWordChar) ++ '.' :: new ++
        aliasSubGo old new fuel (((c :: rest).take L).getLast?) ((c :: rest).drop L)
    | none => c :: aliasSubGo old new fuel (some c) rest

/-- `re.search` existence for the alias pattern. -/
def aliasHasFrom (old : List Char) : Option Char → List Char → Bool
  | _, [] => false
  | prev, c :: rest =>
    (aliasHere old prev (c :: rest)).isSome || aliasHasFrom old (some c) rest

/-!
### The standalone column pattern and its guards

`standalone_pattern = rf'\b{old_col}\b(?!\s*\()'`: a boundary-delimited
occurrence of the column name not followed by optional whitespace and an
opening parenthesis.  The per-line guard `rf'\w+\.{old_col}\b'` asks for at
least one word character, a dot, and the column name with a closing boundary.
-/

/-- Does `\s*\(` match here (the negative lookahead's body)? -/
def openParenAhead (s : List Char) : Bool :=
  match s.dropWhile isPySpace with
  | '(' :: _ => true
  | [] => false
  | _ :: _ => false

/-- Match of `\b<old>\b(?!\s*\()` at the current position. -/
def standHere (old : List Char) (prev : Option Char) (s : List Char) : Bool :=
  tokHere old prev s && !(openParenAhead (s.drop old.length))

/-- `re.search` existence for the standalone pattern. -/
def standHasFrom (old : List Char) : Option Char → List Char → Bool
  | prev, [] => standHere old prev []
  | prev, c :: rest => standHere old prev (c :: rest) || standHasFrom old (some c) rest

/-- Worker for `re.sub(standalone_pattern, new, line, flags=re.IGNORECASE)`. -/
def standSubGo (old new : List Char) : Nat → Option Char → List Char → List Char
  | 0, _, s => s
  | _ + 1, _, [] => []
  | fuel + 1, prev, c :: rest =>
    if standHere old prev (c :: rest) then
      if old.isEmpty then
        new ++ c :: standSubGo old new fuel (some c) rest
      else
        new ++ standSubGo old new fuel (((c :: rest).take old.length).getLast?)
          ((c :: rest).drop old.length)
    else
      c :: standSubGo old new fuel (some c) rest

/-- `re.search(rf'\w+\.{old}\b', line)` existence: a match exists iff some
position holds a word character, then a dot, then the old name with a closing
boundary (the position before the dot witnesses the `\w+`). -/
def qualHere (old : List Char) (s : List Char) : Bool :=
  match s with
  | c :: d :: rest =>
    isWordChar c && d == '.' && startsWithCI old rest &&
      (wordB ((rest.take old.length).getLast?) != wordB ((rest.drop old.length).head?))
  | _ => false

/-- Existence scan for the per-line qualified-reference guard. -/
def qualHasIn (old : List Char) : List Char → Bool
  | [] => false
  | c :: rest => qualHere old (c :: rest) || qualHasIn old rest

/-!
### FROM-clause probes

`_apply_column_mappings` tests `rf'\bFROM\b.*\b{old_table}\b'` (IGNORECASE) on
the whole corrected content; `.` does not match a newline, so the old table
token must follow a FROM token with no newline in between.  `_check_mappings`
embeds the same probe as a lookahead after an unqualified column occurrence.
-/

def fromWord : List Char := ['F', 'R', 'O', 'M']

/-- Search for `\b<pat>\b` without crossing a newline (the `.*` of the probe). -/
def tokInLine (pat : List Char) : Option Char → List Char → Bool
  | prev, [] => tokHere pat prev []
  | prev, c :: rest =>
    tokHere pat prev (c :: rest) ||
      (if c == '\n' then false else tokInLine pat (some c) rest)

/-- `re.search(rf'\bFROM\b.*\b{tbl}\b', s, re.IGNORECASE)`: a FROM token
anywhere, then the table token later with no intervening newline. -/
def fromCheckGo (tbl : List Char) : Option Char → List Char → Bool
  | _, [] => false
  | prev, c :: rest =>
    (tokHere fromWord prev (c :: rest) &&
      tokInLine tbl (((c :: rest).take 4).getLast?) ((c :: rest).drop 4)) ||
    fromCheckGo tbl (some c) rest

/-- The lookahead body `.*?\bFROM\b.*?\b<tbl>\b` of the unqualified column
audit pattern, evaluated from the current position: both gaps stay on the
current line.  The source interpolates the table name into this lookahead
without `re.escape` (line 122), so the literal-token model is faithful
exactly for table names free of regex metacharacters — in particular for
word-character names, which `C7_column_audit_amended` assumes. -/
def fromThenTblLine (tbl : List Char) : Option Char → List Char → Bool
  | _, [] => false
  | prev, c :: rest =>
    (tokHere fromWord prev (c :: rest) &&
      tokInLine tbl (((c :: rest).take 4).getLast?) ((c :: rest).drop 4)) ||
    (if c == '\n' then false else fromThenTblLine tbl (some c) rest)

/-- Match of `rf'(?<!\w){old}(?!\w)(?=.*?\bFROM\b.*?\b{tbl}\b)'` at the
current position (`_check_mappings`, unqualified column form).  `old` is
regex-escaped in the source; `tbl` is not (see `fromThenTblLine`), so
theorems quantifying over table names restrict them to word characters. -/
def unqualColHere (old tbl : List Char) (prev : Option Char) (s : List Char) : Bool :=
  startsWithCI old s && !(wordB prev) && !(wordB ((s.drop old.length).head?)) &&
    fromThenTblLine tbl ((s.take old.length).getLast?.orElse (fun _ => prev))
      (s.drop old.length)

/-- Search scan for the unqualified column audit pattern. -/
def unqualColHasFrom (old tbl : List Char) : Option Char → List Char → Bool
  | prev, [] => unqualColHere old tbl prev []
  | prev, c :: rest =>
    unqualColHere old tbl prev (c :: rest) || unqualColHasFrom old tbl (some c) rest

/-- Match of `rf'(?<!\w){tbl}\.{old}(?!\w)'` at the current position
(`_check_mappings`, qualified column form). -/
def qualTblHere (tbl old : List Char) (prev : Option Char) (s : List Char) : Bool :=
  !(wordB prev) && startsWithCI tbl s &&
    ((s.drop tbl.length).head? == some '.') &&
    startsWithCI old (s.drop (tbl.length + 1)) &&
    !(wordB ((s.drop (tbl.length + 1 + old.length)).head?))

/-- Search scan for the qualified column audit pattern. -/
def qualTblHasFrom (tbl old : List Char) : Option Char → List Char → Bool
  | prev, [] => qualTblHere tbl old prev []
  | prev, c :: rest =>
    qualTblHere tbl old prev (c :: rest) || qualTblHasFrom tbl old (some c) rest

/-!
### Spec-side same-line reading of the unqualified audit pattern

The amended C7 claim reads: the unqualified audit pattern fires exactly when
some single line of the text, considered in isolation, contains a
lookaround-delimited occurrence of the column name followed — still within
that line — by a FROM token and then the table token.  The following
definitions formalise that sentence directly: they scan one line and cannot
see any other line.  `C7_column_audit_amended` proves the source-side scan
`unqualColHasFrom` equivalent to their line-wise disjunction. -/

/-- Spec side: a FROM token at some position of the single line scanned, then
the table token later in that same line (a line holds no newline, so no
cutoff is needed). -/
def fromThenTbl (tbl : List Char) : Option Char → List Char → Bool
  | _, [] => false
  | prev, c :: rest =>
    (tokHere fromWord prev (c :: rest) &&
      hasTokFrom tbl (((c :: rest).take 4).getLast?) ((c :: rest).drop 4)) ||
    fromThenTbl tbl (some c) rest

/-- Spec side: a lookaround-delimited occurrence of `old` at the current
position of the line, followed within the line by a FROM token and then the
table token. -/
def lineUnqualHere (old tbl : List Char) (prev : Option Char) (s : List Char) : Bool :=
  startsWithCI old s && !(wordB prev) && !(wordB ((s.drop old.length).head?)) &&
    fromThenTbl tbl ((s.take old.length).getLast?.orElse (fun _ => prev))
      (s.drop old.length)

/-- Spec side: scan of one line in isolation for the same-line trigger. -/
def lineUnqualScan (old tbl : List Char) : Option Char → List Char → Bool
  | prev, [] => lineUnqualHere old tbl prev []
  | prev, c :: rest =>
    lineUnqualHere old tbl prev (c :: rest) || lineUnqualScan old tbl (some c) rest

/-- Scan of a list of lines: the first line keeps the incoming left context,
every later line starts fresh. -/
def scanLinesFrom (old tbl : List Char) : Option Char → List (List Char) → Bool
  | _, [] => false
  | prev, l :: ls => lineUnqualScan old tbl prev l || scanLinesFrom old tbl none ls

/-!
### String-level wrappers and small text utilities

Core `String` functions use UTF-8 byte positions, which are painful for the
kernel; all real work happens on `List Char` and these wrappers only pack and
unpack. -/

/-- `re.sub(rf'\b{re.escape(old)}\b', new, s, flags=re.IGNORECASE)`. -/
def reSubTok (old new s : String) : String :=
  ⟨subGo old.data new.data s.data.length none s.data⟩

/-- `re.subn` version of `reSubTok` (result text and substitution count). -/
def reSubnTok (old new s : String) : String × Nat :=
  let r := subnGo old.data new.data s.data.length none s.data
  (⟨r.1⟩, r.2)

/-- `len(re.findall(rf'\b{re.escape(old)}\b', s, re.IGNORECASE))`. -/
def reFindallTok (old s : String) : List String :=
  (findallGo old.data s.data.length none s.data).map (fun l => (⟨l⟩ : String))

/-- Python `str.split('\n')`. -/
def splitLines : List Char → List (List Char)
  | [] => [[]]
  | c :: rest =>
    if c == '\n' then [] :: splitLines rest
    else
      match splitLines rest with
      | l :: ls => (c :: l) :: ls
      | [] => [[c]]

/-- Python newline-join of lines. -/
def joinLines (ls : List (List Char)) : List Char := (ls.intersperse ['\n']).flatten

/-- Python `str.strip()` (ASCII whitespace model). -/
def pyTrimL (l : List Char) : List Char :=
  ((l.dropWhile isPySpace).reverse.dropWhile isPySpace).reverse

def pyTrim (s : String) : String := ⟨pyTrimL s.data⟩

/-- Python `str.upper()` (ASCII model). -/
def upperStr (s : String) : String := ⟨s.data.map Char.toUpper⟩

/-- Plain case-sensitive substring test (Python `in` on strings). -/
def subseqHere : List Char → List Char → Bool
  | [], _ => true
  | _ :: _, [] => false
  | p :: ps, c :: cs => p == c && subseqHere ps cs

def containsSubL (needle : List Char) : List Char → Bool
  | [] => subseqHere needle []
  | c :: rest => subseqHere needle (c :: rest) || containsSubL needle rest

def containsSubStr (needle hay : String) : Bool := containsSubL needle.data hay.data

/-- Number of occurrences of a character (Python `str.count`). -/
def countChar (c : Char) (s : String) : Nat := s.data.count c

/-!
## `SQLMappingReviewer.apply_corrections` and helpers

The mapping set is modelled as the dictionaries the loader builds:
`tm : List (String × String)` is the `old→new` table dict in insertion order
with unique keys, and `cm : List (String × List (String × String))` the
column dict keyed by (new) table name. -/

/-- `new_to_old_tables = {v: k for k, v in old_to_new_tables.items()}` followed
by `.get(new_table_name)`: a later pair with the same value overwrites an
earlier one, so the lookup returns the last matching key. -/
def lookupRev (tm : List (String × String)) (v : String) : Option String :=
  ((tm.filter (fun p => p.2 == v)).getLast?).map (fun p => p.1)

/-- `_apply_table_mappings`: fold of boundary-replacements over the table dict. -/
def applyTableMappings (tm : List (String × String)) (s : String) : String :=
  tm.foldl (fun content r => reSubTok r.1 r.2 content) s

/-- String wrappers for the column-pass scanners. -/
def aliasSubStr (old new s : String) : String :=
  ⟨aliasSubGo old.data new.data s.data.length none s.data⟩

def fromCheckStr (tbl s : String) : Bool := fromCheckGo tbl.data none s.data

def standSearchL (old : List Char) (line : List Char) : Bool :=
  standHasFrom old none line

def qualSearchL (old : List Char) (line : List Char) : Bool := qualHasIn old line

def standSubL (old new line : List Char) : List Char :=
  standSubGo old new line.length none line

/-- Body of the per-column-rule work in `_apply_column_mappings`: the alias
substitution, then — only when the document still has a FROM clause mentioning
the old table name — the guarded line-by-line standalone substitution. -/
def applyColRule (oldTbl : String) (content : String) (rule : String × String) : String :=
  let c1 := aliasSubStr rule.1 rule.2 content
  if fromCheckStr oldTbl c1 then
    ⟨joinLines ((splitLines c1.data).map (fun line =>
      if standSearchL rule.1.data line then
        if !(qualSearchL rule.1.data line) then standSubL rule.1.data rule.2.data line
        else line
      else line))⟩
  else c1

/-- `_apply_column_mappings`: per table group, resolve the old table name via
the reversed table dict (skipping groups with no, or a falsy empty, old name),
then apply each column rule. -/
def applyColumnMappings (tm : List (String × String))
    (cm : List (String × List (String × String))) (s : String) : String :=
  cm.foldl (fun content g =>
    match lookupRev tm g.1 with
    | none => content
    | some oldTbl =>
      if oldTbl == "" then content
      else g.2.foldl (applyColRule oldTbl) content) s

/-- `apply_corrections`: table pass then column pass. -/
def applyCorrections (tm : List (String × String))
    (cm : List (String × List (String × String))) (s : String) : String :=
  applyColumnMappings tm cm (applyTableMappings tm s)

/-!
## `SQLMappingReviewer._check_mappings`

Finding messages follow the source, with the decorative quote characters
around names omitted. -/

/-- Table-level audit of one rule: one finding if the old name occurs as a
lookaround-delimited token anywhere. -/
def tableIssue (s : String) (r : String × String) : List String :=
  if hasTokNWFrom r.1.data none s.data then
    ["TABLE MAPPING: " ++ r.1 ++ " -> Should be " ++ r.2]
  else []

/-- Column-level audit of one `(table, old, new)` triple: one finding if the
qualified pattern or the unqualified pattern (with its same-line FROM-clause
lookahead) matches. -/
def colIssue (tbl : String) (s : String) (r : String × String) : List String :=
  if qualTblHasFrom tbl.data r.1.data none s.data ||
      unqualColHasFrom r.1.data tbl.data none s.data then
    ["COLUMN MAPPING: " ++ r.1 ++ " -> Should be " ++ r.2 ++ " (in table " ++ tbl ++ ")"]
  else []

/-- `_check_mappings`: table findings then column findings, in rule order. -/
def checkMappings (tm : List (String × String))
    (cm : List (String × List (String × String))) (s : String) : List String :=
  (tm.map (tableIssue s)).flatten ++
    (cm.map (fun g => (g.2.map (colIssue g.1 s)).flatten)).flatten

/-!
## `SQLMappingReviewer._validate_sql_structure`
-/

/-- Modelled from the spec: `sqlparse.parse` tokenizes any nonempty text into
at least one statement and yields no statements exactly for empty text (the
library call itself is external to the repository). -/
def sqlparseStatements (s : String) : List Unit := if s == "" then [] else [()]

/-- `_validate_sql_structure`: the early empty-input return, then the three
independent checks whose findings are all appended. -/
def validateSqlStructure (s : String) : List String :=
  if (sqlparseStatements s).isEmpty then ["ERROR: Empty SQL file"]
  else
    (if !(containsSubStr "SELECT" (upperStr s)) then ["ERROR: Missing SELECT clause"] else []) ++
    (if !(containsSubStr "FROM" (upperStr s)) then ["ERROR: Missing FROM clause"] else []) ++
    (if countChar '(' s != countChar ')' s then ["ERROR: Unbalanced parentheses"] else [])

/-!
## `SQLMappingReviewer._check_semantics`

The shallow parse itself is `sqlparse` (external); the checker is modelled
over the outcome of that parse: `none` when the parse raises (the `except`
path) and otherwise the statement's token list as far as the checker reads
it — identifiers with their normalized text, WHERE clauses with their
comparison sublists' left/right operand text. -/

inductive SqlTok where
  | ident (normalized : String)
  | whereCl (comps : List (String × String))
  | other
  deriving DecidableEq

/-- Lines 136-152 of `_check_semantics`, given a successful shallow parse:
JOIN-without-ON warnings over identifier tokens, then string-comparison
warnings over WHERE-clause comparisons. -/
def semanticIssuesOf (toks : List SqlTok) : List String :=
  (toks.map (fun t =>
    match t with
    | SqlTok.ident nrm =>
      if containsSubStr "JOIN" nrm && !(containsSubStr "ON" nrm) then
        ["WARNING: JOIN without ON clause detected"]
      else []
    | _ => [])).flatten ++
  (toks.map (fun t =>
    match t with
    | SqlTok.whereCl comps =>
      (comps.map (fun lr =>
        if containsSubStr "\x27" lr.2 &&
            !(containsSubStr "DATE" (upperStr lr.1) ||
              containsSubStr "TIME" (upperStr lr.1) ||
              containsSubStr "TIMESTAMP" (upperStr lr.1)) then
          ["WARNING: Possible string-to-other type comparison: " ++ lr.1 ++ " = " ++ lr.2]
        else [])).flatten
    | _ => [])).flatten

/-- `_check_semantics`, parameterized by the external shallow parser: on a
parse failure the `except` path silently yields no findings. -/
def checkSemanticsWith (parse : String → Option (List SqlTok)) (s : String) : List String :=
  match parse s with
  | none => []
  | some toks => semanticIssuesOf toks

/-!
## `update_sql_with_mappings` (`src/Streamlit_Dashboard.py`)
-/

/-- Stable insertion into a `le`-sorted list (used to model the sorts below;
structural, hence kernel-computable). -/
def insertSorted (le : α → α → Bool) (x : α) : List α → List α
  | [] => [x]
  | y :: ys => if le y x then y :: insertSorted le x ys else x :: y :: ys

/-- Stable insertion sort. -/
def sortBy (le : α → α → Bool) (l : List α) : List α := l.foldr (insertSorted le) []

structure ChangeRec where
  old : String
  new : String
  occurrences : Nat
  deriving DecidableEq

/-- One loop iteration of `update_sql_with_mappings`: strip both names, skip
falsy or unchanged rules, count boundary occurrences, and substitute only
when the count is positive, recording the change. -/
def updateStep (st : String × List ChangeRec) (row : String × String) :
    String × List ChangeRec :=
  let o := pyTrim row.1
  let n := pyTrim row.2
  if o != "" && n != "" && o != n then
    let cnt := (reFindallTok o st.1).length
    if cnt > 0 then
      ((reSubnTok o n st.1).1, st.2 ++ [⟨o, n, cnt⟩])
    else st
  else st

/-- `update_sql_with_mappings`: rows sorted by (unstripped) old-name length,
longest first (`sort_values(..., ascending=False)`; pandas does not promise
stability here, a stable sort is one refinement of it), then folded through
`updateStep`. -/
def updateSqlWithMappings (rows : List (String × String)) (s : String) :
    String × List ChangeRec :=
  let sorted := sortBy (fun a b => decide (b.1.length ≤ a.1.length)) rows
  sorted.foldl updateStep (s, [])

/-!
## `load_mappings_from_dataframe` and its DataFrame model

A DataFrame is a list of column labels plus rows of optional cells (a `none`
cell is a pandas missing value), cells aligned with labels by position.  The
reviewer state holds the two mapping fields through their lifecycle — unset,
holding an intermediate frame, or holding the final dictionaries — plus the
accumulated review comments. -/

structure DFrame where
  cols : List String
  rows : List (List (Option String))
  deriving DecidableEq

inductive MVal where
  | unset
  | frame (d : DFrame)
  | tdict (m : List (String × String))
  | cdict (m : List (String × List (String × String)))
  deriving DecidableEq

structure RState where
  table_mappings : MVal
  column_mappings : MVal
  review_comments : List String
  deriving DecidableEq

def initialRState : RState := ⟨MVal.unset, MVal.unset, []⟩

/-- Cell of a row under a column label (by label position). -/
def cellOf (d : DFrame) (row : List (Option String)) (c : String) : Option String :=
  match d.cols.indexOf? c with
  | some i => (row.get? i).getD none
  | none => none

/-- `df.columns = [i.strip() for i in df.columns]`. -/
def stripCols (d : DFrame) : DFrame := { d with cols := d.cols.map pyTrim }

/-- `df.dropna(subset=...)`: raises `KeyError` when a subset label is absent,
otherwise keeps the rows whose subset cells are all present. -/
def dropna (d : DFrame) (subset : List String) : Except String DFrame :=
  if subset.all (fun c => d.cols.contains c) then
    Except.ok { d with rows := d.rows.filter (fun r => subset.all (fun c => (cellOf d r c).isSome)) }
  else Except.error "KeyError"

/-- Strip the cell at one position of a row. -/
def stripAt : Nat → List (Option String) → List (Option String)
  | _, [] => []
  | 0, v :: vs => v.map pyTrim :: vs
  | i + 1, v :: vs => v :: stripAt i vs

/-- `df[c] = df[c].str.strip()`. -/
def stripColVals (d : DFrame) (c : String) : DFrame :=
  match d.cols.indexOf? c with
  | some i => { d with rows := d.rows.map (stripAt i) }
  | none => d

/-- Python-dict insertion: an existing key keeps its position and gets the new
value, a fresh key is appended. -/
def dictInsert (m : List (String × String)) (k v : String) : List (String × String) :=
  if m.any (fun p => p.1 == k) then m.map (fun p => if p.1 == k then (k, v) else p)
  else m ++ [(k, v)]

/-- Lookup in an insertion-ordered dict. -/
def dictLookup (m : List (String × String)) (k : String) : Option String :=
  (m.find? (fun p => p.1 == k)).map (fun p => p.2)

/-- `df.set_index('OldTableName')['NewTableName'].to_dict()`: rows folded into
a dict, later duplicates overwriting earlier ones. -/
def tableToDict (d : DFrame) : List (String × String) :=
  d.rows.foldl (fun m r =>
    match cellOf d r "OldTableName", cellOf d r "NewTableName" with
    | some o, some n => dictInsert m o n
    | _, _ => m) []

/-- Insert into the grouped column dict under a table key (inner dict
last-wins, like `dictInsert`). -/
def groupInsert (m : List (String × List (String × String))) (t o n : String) :
    List (String × List (String × String)) :=
  if m.any (fun g => g.1 == t) then
    m.map (fun g => if g.1 == t then (g.1, dictInsert g.2 o n) else g)
  else m ++ [(t, [(o, n)])]

/-- String order via `compare` (for pandas `groupby`, which sorts group keys). -/
def strLe (a b : String) : Bool := compare a b != Ordering.gt

/-- `df.groupby('TableName').apply(... to_dict ...).to_dict()`: rows grouped
under their table name (inner dicts in row order, last-wins), group keys in
sorted order. -/
def groupDict (d : DFrame) : List (String × List (String × String)) :=
  let grouped := d.rows.foldl (fun m r =>
    match cellOf d r "TableName", cellOf d r "OldColumnName", cellOf d r "NewColumnName" with
    | some t, some o, some n => groupInsert m t o n
    | _, _, _ => m) []
  sortBy (fun a b => strLe a.1 b.1) grouped

/-- `load_mappings_from_dataframe`, with the `try`/`except` modelled step by
step: each assignment to `self.table_mappings` / `self.column_mappings`
persists even when a later step raises, and the `except` branch appends a
CRITICAL comment and returns `False`.  The only failing step in this model is
`dropna` on a frame missing a required label. -/
def loadMappings (tdf cdf : DFrame) (st : RState) : Bool × RState :=
  let st1 := { st with table_mappings := MVal.frame (stripCols tdf) }
  match dropna (stripCols tdf) ["OldTableName", "NewTableName"] with
  | Except.error e =>
    (false, { st1 with review_comments :=
        st1.review_comments ++ ["CRITICAL: Failed to load mappings - " ++ e] })
  | Except.ok t1 =>
    let t2 := stripColVals (stripColVals t1 "OldTableName") "NewTableName"
    let st2 := { st1 with table_mappings := MVal.frame t2 }
    let st3 := { st2 with column_mappings := MVal.frame (stripCols cdf) }
    match dropna (stripCols cdf) ["TableName", "OldColumnName", "NewColumnName"] with
    | Except.error e =>
      (false, { st3 with review_comments :=
          st3.review_comments ++ ["CRITICAL: Failed to load mappings - " ++ e] })
    | Except.ok c1 =>
      let c2 := stripColVals (stripColVals (stripColVals c1 "TableName") "OldColumnName")
        "NewColumnName"
      let st4 := { st3 with column_mappings := MVal.frame c2 }
      let st5 := { st4 with table_mappings := MVal.tdict (tableToDict t2) }
      let st6 := { st5 with column_mappings := MVal.cdict (groupDict c2) }
      (true, st6)

/-!
## Run decomposition

For reasoning about boundary-delimited matching we decompose text into
maximal runs of characters of constant word-ness.  A `\b<old>\b` match of a
word-character-only `old` is exactly a whole word run that equals `old`
case-insensitively. -/

/-- Maximal runs of constant word-ness, in order. -/
def runs : List Char → List (List Char)
  | [] => []
  | c :: rest =>
    match runs rest with
    | [] => [[c]]
    | [] :: rs => [c] :: [] :: rs
    | (d :: r) :: rs =>
      if isWordChar c == isWordChar d then (c :: d :: r) :: rs
      else [c] :: (d :: r) :: rs

/-- Well-formedness of a run list whose first run has word-ness `w`: runs are
nonempty, homogeneous, and strictly alternate in class. -/
def runAlt : Bool → List (List Char) → Bool
  | _, [] => true
  | w, r :: rs => !r.isEmpty && r.all (fun c => isWordChar c == w) && runAlt (!w) rs

/-- The run-level effect of `re.sub(rf'\b{old}\b', new, ·, re.IGNORECASE)` for
a word-only `old`: word runs case-insensitively equal to `old` become `new`,
all other runs survive verbatim. -/
def replRun (old new : List Char) (r : List Char) : List Char :=
  if lowerL r == lowerL old then new else r

/-- Run-level table pass: each rule maps over the run list in order. -/
def tableRunPass (tm : List (String × String)) (rs : List (List Char)) :
    List (List Char) :=
  tm.foldl (fun acc r => acc.map (replRun r.1.data r.2.data)) rs

/-- Identifier-shaped name: nonempty and word characters only. -/
def identName (s : String) : Prop := s.data ≠ [] ∧ s.data.all isWordChar = true

/-- The table-dictionary stage of `load_mappings_from_dataframe` on its own
(the value `self.table_mappings` holds after line 52 when loading succeeds). -/
def tableDictOf (tdf : DFrame) : Option (List (String × String)) :=
  match dropna (stripCols tdf) ["OldTableName", "NewTableName"] with
  | Except.error _ => none
  | Except.ok t1 =>
    some (tableToDict (stripColVals (stripColVals t1 "OldTableName") "NewTableName"))

/-!
## Character-class lemmas

ASCII case folding never moves a character across the `\w` class boundary:
`toLower` only maps uppercase letters to lowercase letters. -/

theorem toNat_ofNat_valid (n : Nat) (h : n.isValidChar) : (Char.ofNat n).toNat = n := by
  simp [Char.ofNat, Char.ofNatAux, dif_pos h, Char.toNat, UInt32.toNat]

theorem isUpper_iff (c : Char) : c.isUpper = true ↔ 65 ≤ c.toNat ∧ c.toNat ≤ 90 := by
  simp [Char.isUpper, Char.toNat]
  exact ⟨fun ⟨h1, h2⟩ => ⟨h1, h2⟩, fun ⟨h1, h2⟩ => ⟨h1, h2⟩⟩

theorem isLower_iff (c : Char) : c.isLower = true ↔ 97 ≤ c.toNat ∧ c.toNat ≤ 122 := by
  simp [Char.isLower, Char.toNat]
  exact ⟨fun ⟨h1, h2⟩ => ⟨h1, h2⟩, fun ⟨h1, h2⟩ => ⟨h1, h2⟩⟩

theorem isWordChar_toLower (c : Char) : isWordChar c.toLower = isWordChar c := by
  by_cases h : 65 ≤ c.toNat ∧ c.toNat ≤ 90
  · have hval : c.toLower = Char.ofNat (c.toNat + 32) := by
      unfold Char.toLower
      rw [if_pos ⟨h.1, h.2⟩]
    have hvalid : (c.toNat + 32).isValidChar := Or.inl (by omega)
    have htn : c.toLower.toNat = c.toNat + 32 := by
      rw [hval, toNat_ofNat_valid _ hvalid]
    have h1 : c.toLower.isLower = true := (isLower_iff _).mpr (by omega)
    have h2 : c.isUpper = true := (isUpper_iff _).mpr h
    unfold isWordChar Char.isAlphanum Char.isAlpha
    rw [h1, h2]
    simp
  · have hval : c.toLower = c := by
      unfold Char.toLower
      rw [if_neg (by omega)]
    rw [hval]

/-- Characters equal up to case folding lie in the same `\w` class. -/
theorem eqCI_wordClass {a b : Char} (h : a.toLower = b.toLower) :
    isWordChar a = isWordChar b := by
  rw [← isWordChar_toLower a, ← isWordChar_toLower b, h]

/-- `eqCI` as a propositional equation on lowercased characters. -/
theorem eqCI_iff {a b : Char} : eqCI a b = true ↔ a.toLower = b.toLower := by
  simp [eqCI]

/-!
## `startsWithCI` and `lowerL` basics
-/

theorem startsWithCI_iff (p : List Char) : ∀ s : List Char,
    startsWithCI p s = true ↔ p.length ≤ s.length ∧ lowerL (s.take p.length) = lowerL p := by
  induction p with
  | nil => intro s; simp [startsWithCI, lowerL]
  | cons a p ih =>
    intro s
    cases s with
    | nil => simp [startsWithCI, lowerL]
    | cons c cs =>
      simp only [startsWithCI, Bool.and_eq_true, eqCI_iff, ih cs, List.length_cons,
        List.take_succ_cons, lowerL, List.map_cons, List.cons.injEq]
      constructor
      · rintro ⟨h1, h2, h3⟩
        exact ⟨by omega, h1.symm, h3⟩
      · rintro ⟨h1, h2, h3⟩
        exact ⟨h2.symm, by omega, h3⟩

theorem lowerL_append (a b : List Char) : lowerL (a ++ b) = lowerL a ++ lowerL b := by
  simp [lowerL]

theorem lowerL_length (a : List Char) : (lowerL a).length = a.length := by
  simp [lowerL]

/-- Case-insensitively equal lists agree character-wise on the `\w` class. -/
theorem wordClass_map_of_lowerL : ∀ {a b : List Char}, lowerL a = lowerL b →
    a.map isWordChar = b.map isWordChar := by
  intro a
  induction a with
  | nil =>
    intro b h
    cases b with
    | nil => rfl
    | cons d ds => simp [lowerL] at h
  | cons c cs ih =>
    intro b h
    cases b with
    | nil => simp [lowerL] at h
    | cons d ds =>
      simp only [lowerL, List.map_cons, List.cons.injEq] at h
      simp only [List.map_cons, List.cons.injEq]
      exact ⟨eqCI_wordClass h.1, ih h.2⟩

/-!
## Count/substitute agreement (flat update mode)
-/

theorem findall_length_eq_subn (old new : List Char) :
    ∀ (fuel : Nat) (prev : Option Char) (s : List Char),
    (findallGo old fuel prev s).length = (subnGo old new fuel prev s).2 := by
  intro fuel
  induction fuel with
  | zero => intro prev s; simp [findallGo, subnGo]
  | succ n ih =>
    intro prev s
    cases s with
    | nil => simp [findallGo, subnGo]
    | cons c rest =>
      by_cases h : tokHere old prev (c :: rest) = true
      · by_cases he : old.isEmpty = true
        · simp [findallGo, subnGo, h, he, ih]
        · simp [findallGo, subnGo, h, he, ih]
      · simp [findallGo, subnGo, h, ih]

/-- C5.  Count/substitute agreement in the flat update mode
(`update_sql_with_mappings`): for every rule and every text, the number of
boundary-delimited case-insensitive occurrences of the old name found by the
counting probe (`re.findall`) equals the number of substitutions performed by
the replace operation, because both use the same boundary pattern and scan. -/
theorem C5_count_substitute_agreement (old new s : String) :
    (reFindallTok old s).length = (reSubnTok old new s).2 := by
  unfold reFindallTok reSubnTok
  rw [List.length_map]
  exact findall_length_eq_subn old.data new.data s.data.length none s.data

/-!
## The semantic auditor (C8)
-/

/-- C8.  The semantic auditor never aborts: it is a total function of the
shallow-parse outcome, and when the parse fails (the `except` path of
`_check_semantics`) it silently produces zero findings. -/
theorem C8_semantic_never_aborts (parse : String → Option (List SqlTok)) (s : String)
    (h : parse s = none) : checkSemanticsWith parse s = [] := by
  simp [checkSemanticsWith, h]

/-- Witness for C8 at a concrete failing parser and input. -/
theorem C8_semantic_never_aborts_witness :
    ((fun _ : String => (none : Option (List SqlTok))) "SELECT ???") = none ∧
      checkSemanticsWith (fun _ => none) "SELECT ???" = [] :=
  ⟨rfl, C8_semantic_never_aborts (fun _ => none) "SELECT ???" rfl⟩

/-!
## The change report of the flat update mode (C10)
-/

theorem updateStep_skip (st : String × List ChangeRec) (row : String × String)
    (h : pyTrim row.1 = pyTrim row.2 ∨ pyTrim row.1 = "" ∨ pyTrim row.2 = "") :
    updateStep st row = st := by
  unfold updateStep
  rcases h with h | h | h
  · simp [h]
  · simp [h]
  · simp [h]

theorem updateStep_entries (st : String × List ChangeRec) (row : String × String)
    (c : ChangeRec) (hc : c ∈ (updateStep st row).2) :
    c ∈ st.2 ∨ (1 ≤ c.occurrences ∧ c.old ≠ c.new ∧ c.old ≠ "" ∧ c.new ≠ "") := by
  unfold updateStep at hc
  by_cases h1 : (pyTrim row.1 != pyTrim row.2) = true
  · by_cases h2 : (pyTrim row.1 != "") = true
    · by_cases h3 : (pyTrim row.2 != "") = true
      · simp only [h1, h2, h3, Bool.and_self, Bool.and_true, if_true] at hc
        by_cases h4 : 0 < (reFindallTok (pyTrim row.1) st.1).length
        · simp only [h4, if_true, List.mem_append, List.mem_singleton] at hc
          rcases hc with hc | hc
          · exact Or.inl hc
          · subst hc
            refine Or.inr ⟨h4, ?_, ?_, ?_⟩
            · simpa using h1
            · simpa using h2
            · simpa using h3
        · simp only [h4, if_false] at hc
          exact Or.inl hc
      · simp only [h2, h1, h3, Bool.and_false, Bool.false_and, Bool.and_true,
          Bool.true_and, if_false] at hc
        exact Or.inl hc
    · simp only [h1, h2, Bool.false_and, Bool.and_false, if_false] at hc
      exact Or.inl hc
  · simp only [h1, Bool.and_false, if_false] at hc
    exact Or.inl hc

theorem update_fold_entries (rows : List (String × String)) :
    ∀ (st : String × List ChangeRec) (c : ChangeRec),
    (∀ e ∈ st.2, 1 ≤ e.occurrences ∧ e.old ≠ e.new ∧ e.old ≠ "" ∧ e.new ≠ "") →
    c ∈ (rows.foldl updateStep st).2 →
    1 ≤ c.occurrences ∧ c.old ≠ c.new ∧ c.old ≠ "" ∧ c.new ≠ "" := by
  induction rows with
  | nil => intro st c hst hc; exact hst c hc
  | cons row rows ih =>
    intro st c hst hc
    refine ih (updateStep st row) c ?_ hc
    intro e he
    rcases updateStep_entries st row e he with h | h
    · exact hst e h
    · exact h

/-- C10.  Change-report invariant of the flat update mode: every entry of the
change list returned by `update_sql_with_mappings` has at least one occurrence
and a trimmed old name different from its (nonempty) trimmed new name; and a
rule whose trimmed old and new names are equal or empty is skipped entirely,
changing neither the text nor the change list. -/
theorem C10_change_report_invariant :
    (∀ (rows : List (String × String)) (s : String) (c : ChangeRec),
      c ∈ (updateSqlWithMappings rows s).2 →
      1 ≤ c.occurrences ∧ c.old ≠ c.new ∧ c.old ≠ "" ∧ c.new ≠ "") ∧
    (∀ (st : String × List ChangeRec) (row : String × String),
      pyTrim row.1 = pyTrim row.2 ∨ pyTrim row.1 = "" ∨ pyTrim row.2 = "" →
      updateStep st row = st) := by
  constructor
  · intro rows s c hc
    exact update_fold_entries _ (s, []) c (by intro e he; simp at he) hc
  · exact updateStep_skip

/-- Witness for C10 at a concrete run: the skipped identity rule contributes
nothing and the recorded entry satisfies the invariant. -/
theorem C10_change_report_invariant_witness :
    (⟨"cust", "client", 1⟩ : ChangeRec) ∈
        (updateSqlWithMappings [("t", "t"), ("cust", "client")] "SELECT cust FROM t").2 ∧
      (1 ≤ (1 : Nat) ∧ ("cust" : String) ≠ "client" ∧ ("cust" : String) ≠ "" ∧
        ("client" : String) ≠ "") ∧
      updateStep ("SELECT cust FROM t", []) ("t", "t") = ("SELECT cust FROM t", []) := by
  refine ⟨by decide, ?_, ?_⟩
  · exact C10_change_report_invariant.1 [("t", "t"), ("cust", "client")]
      "SELECT cust FROM t" ⟨"cust", "client", 1⟩ (by decide)
  · exact C10_change_report_invariant.2 ("SELECT cust FROM t", []) ("t", "t")
      (Or.inl (by decide))

/-!
## Mapping-set construction (C3)
-/

theorem dropna_error_val (d : DFrame) (subset : List String) (e : String)
    (h : dropna d subset = Except.error e) : e = "KeyError" := by
  unfold dropna at h
  split at h
  · cases h
  · injection h with h
    exact h.symm

/-- C3 (amended).  When `load_mappings_from_dataframe` fails, it appends a
CRITICAL comment and returns `False`, and neither field ever holds a completed
mapping dictionary from this call — but the fields are left holding
intermediate DataFrame values, so construction is not atomic: on every failure
path the table-mappings field holds an intermediate frame. -/
theorem C3_load_failure_amended (tdf cdf : DFrame) (st : RState)
    (h : (loadMappings tdf cdf st).1 = false) :
    (loadMappings tdf cdf st).2.review_comments =
      st.review_comments ++ ["CRITICAL: Failed to load mappings - KeyError"] ∧
    (∃ d : DFrame, (loadMappings tdf cdf st).2.table_mappings = MVal.frame d) := by
  rcases h1 : dropna (stripCols tdf) ["OldTableName", "NewTableName"] with e | t1
  · have he : e = "KeyError" := dropna_error_val _ _ _ h1
    subst he
    simp only [loadMappings, h1]
    exact ⟨rfl, ⟨stripCols tdf, rfl⟩⟩
  · rcases h2 : dropna (stripCols cdf) ["TableName", "OldColumnName", "NewColumnName"]
      with e | c1
    · have he : e = "KeyError" := dropna_error_val _ _ _ h2
      subst he
      simp only [loadMappings, h1, h2]
      exact ⟨rfl, ⟨_, rfl⟩⟩
    · exfalso
      simp only [loadMappings, h1, h2] at h
      cases h

/-- C3 counterexample.  On a failing load (column frame missing its required
labels) the run is reported CRITICAL and `False` is returned, yet the
repository state is left partially built: the table-mappings field holds the
cleaned table DataFrame (neither the initial unset value nor a mapping
dictionary), falsifying "the repository's table map and column map are not
left partially built on this failure path". -/
theorem C3_load_failure_counterexample :
    (loadMappings ⟨["OldTableName", "NewTableName"], [[some "customers", some "client"]]⟩
        ⟨["TableName"], []⟩ initialRState).1 = false ∧
    (loadMappings ⟨["OldTableName", "NewTableName"], [[some "customers", some "client"]]⟩
        ⟨["TableName"], []⟩ initialRState).2.table_mappings =
      MVal.frame ⟨["OldTableName", "NewTableName"], [[some "customers", some "client"]]⟩ ∧
    (loadMappings ⟨["OldTableName", "NewTableName"], [[some "customers", some "client"]]⟩
        ⟨["TableName"], []⟩ initialRState).2.review_comments =
      ["CRITICAL: Failed to load mappings - KeyError"] := by
  decide

/-- Witness for the amended C3 at a concrete failing load. -/
theorem C3_load_failure_amended_witness :
    (loadMappings ⟨["OldTableName", "NewTableName"], [[some "customers", some "client"]]⟩
        ⟨["TableName"], []⟩ initialRState).1 = false ∧
    ((loadMappings ⟨["OldTableName", "NewTableName"], [[some "customers", some "client"]]⟩
        ⟨["TableName"], []⟩ initialRState).2.review_comments =
      ([] : List String) ++ ["CRITICAL: Failed to load mappings - KeyError"] ∧
    (∃ d : DFrame, (loadMappings ⟨["OldTableName", "NewTableName"],
        [[some "customers", some "client"]]⟩
        ⟨["TableName"], []⟩ initialRState).2.table_mappings = MVal.frame d)) :=
  ⟨by decide, C3_load_failure_amended _ _ _ (by decide)⟩

/-!
## The structural validator (C4)
-/

/-- C4 (amended).  For every nonempty input text the three structural checks
are all evaluated and each applicable finding is appended independently of the
others (no short-circuiting); the text `UPDATE foo SET x=1` yields exactly the
missing-SELECT and missing-FROM findings.  (The empty text instead takes the
early empty-file return.) -/
theorem C4_validator_amended :
    (∀ s : String, s ≠ "" →
      ("ERROR: Missing SELECT clause" ∈ validateSqlStructure s ↔
          containsSubStr "SELECT" (upperStr s) = false) ∧
      ("ERROR: Missing FROM clause" ∈ validateSqlStructure s ↔
          containsSubStr "FROM" (upperStr s) = false) ∧
      ("ERROR: Unbalanced parentheses" ∈ validateSqlStructure s ↔
          (countChar '(' s != countChar ')' s) = true)) ∧
    validateSqlStructure "UPDATE foo SET x=1" =
      ["ERROR: Missing SELECT clause", "ERROR: Missing FROM clause"] := by
  constructor
  · intro s hs
    have hne : (sqlparseStatements s).isEmpty = false := by
      unfold sqlparseStatements
      have : (s == "") = false := by
        simp [hs]
      simp [this]
    unfold validateSqlStructure
    rw [hne]
    simp only [Bool.false_eq_true, if_false]
    by_cases hsel : containsSubStr "SELECT" (upperStr s) = true <;>
      by_cases hfrom : containsSubStr "FROM" (upperStr s) = true <;>
        by_cases hpar : (countChar '(' s != countChar ')' s) = true <;>
          simp [hsel, hfrom, hpar]
  · decide

/-- C4 counterexample.  On the empty text the validator returns only the
empty-file error: the missing-SELECT finding is applicable (SELECT is absent)
but is not appended, because the early return short-circuits the three
checks.  This falsifies the claim's "for every input text". -/
theorem C4_validator_counterexample :
    validateSqlStructure "" = ["ERROR: Empty SQL file"] ∧
    ¬ ("ERROR: Missing SELECT clause" ∈ validateSqlStructure "") ∧
    containsSubStr "SELECT" (upperStr "") = false := by
  decide

/-- Witness for the amended C4 at the concrete text of the claim. -/
theorem C4_validator_amended_witness :
    (("UPDATE foo SET x=1" : String) ≠ "") ∧
    ("ERROR: Missing SELECT clause" ∈ validateSqlStructure "UPDATE foo SET x=1" ↔
        containsSubStr "SELECT" (upperStr "UPDATE foo SET x=1") = false) :=
  ⟨by decide, (C4_validator_amended.1 "UPDATE foo SET x=1" (by decide)).1⟩

/-!
## Qualified vs unqualified column scoping in the correction engine (C2)
-/

/-- C2 (amended).  With table rule `customers→client` and column rule
`(client, cust_id, client_id)`: the alias-qualified occurrence in
`SELECT c.cust_id FROM customers c` is rewritten to `c.client_id`
unconditionally; but in `SELECT cust_id FROM customers` the bare occurrence is
NOT rewritten, because the standalone pass checks for the old table name in
the already-table-corrected text, where `customers` no longer occurs in any
FROM clause. -/
theorem C2_column_scoping_amended :
    applyCorrections [("customers", "client")] [("client", [("cust_id", "client_id")])]
        "SELECT c.cust_id FROM customers c" = "SELECT c.client_id FROM client c" ∧
    applyCorrections [("customers", "client")] [("client", [("cust_id", "client_id")])]
        "SELECT cust_id FROM customers" = "SELECT cust_id FROM client" := by
  decide

/-- C2 counterexample.  The claim demands that `SELECT cust_id FROM customers`
rewrite the bare `cust_id` to `client_id`; the engine instead leaves it
unchanged (only the table name is rewritten). -/
theorem C2_column_scoping_counterexample :
    applyCorrections [("customers", "client")] [("client", [("cust_id", "client_id")])]
        "SELECT cust_id FROM customers" = "SELECT cust_id FROM client" ∧
    applyCorrections [("customers", "client")] [("client", [("cust_id", "client_id")])]
        "SELECT cust_id FROM customers" ≠ "SELECT client_id FROM client" := by
  decide

/-!
## The column-mapping audit trigger (C7)

The unqualified audit pattern's lookahead `(?=.*?\bFROM\b.*?\b{table}\b)`
cannot cross a newline, so the source-side scan `unqualColHasFrom`
decomposes over the lines of the text: it fires exactly when some single
line, scanned in isolation by the spec-side `lineUnqualScan`, contains a
delimited occurrence of the column name followed by a FROM token and then
the table token.  The lemmas below establish that decomposition. -/

theorem tokHere_nil_eq (prev : Option Char) (s : List Char) :
    tokHere [] prev s = (wordB prev != wordB s.head?) := rfl

theorem tokHere_cons_eq (p : Char) (ps : List Char) (prev : Option Char) (s : List Char) :
    tokHere (p :: ps) prev s =
      (startsWithCI (p :: ps) s && (wordB prev != wordB s.head?) &&
        (wordB ((s.take (p :: ps).length).getLast?) !=
          wordB ((s.drop (p :: ps).length).head?))) := rfl

theorem tokHere_fromWord_eq (prev : Option Char) (s : List Char) :
    tokHere fromWord prev s =
      (startsWithCI fromWord s && (wordB prev != wordB s.head?) &&
        (wordB ((s.take 4).getLast?) != wordB ((s.drop 4).head?))) := rfl

theorem startsWithCI_le (p s : List Char) (h : startsWithCI p s = true) :
    p.length ≤ s.length := ((startsWithCI_iff p s).mp h).1

/-- Under `re.IGNORECASE` a character still only matches a literal newline if
it is one: ASCII case folding never produces `\n`. -/
theorem eqCI_newline {p : Char} (h : p ≠ '\n') : eqCI p '\n' = false := by
  cases hb : eqCI p '\n' with
  | false => rfl
  | true =>
    exfalso
    have hl : p.toLower = '\n' := by
      have hq := eqCI_iff.mp hb
      rw [(by decide : ('\n' : Char).toLower = '\n')] at hq
      exact hq
    by_cases hr : 65 ≤ p.toNat ∧ p.toNat ≤ 90
    · have hval : p.toLower = Char.ofNat (p.toNat + 32) := by
        unfold Char.toLower
        rw [if_pos ⟨hr.1, hr.2⟩]
      have hvalid : (p.toNat + 32).isValidChar := Or.inl (by omega)
      have htn : p.toLower.toNat = p.toNat + 32 := by
        rw [hval, toNat_ofNat_valid _ hvalid]
      rw [hl] at htn
      have h10 : ('\n' : Char).toNat = 10 := by decide
      omega
    · have hval : p.toLower = p := by
        unfold Char.toLower
        rw [if_neg (by omega)]
      exact h (by rw [← hval, hl])

theorem startsWithCI_append_nl : ∀ (pat : List Char), '\n' ∉ pat →
    ∀ (l rest : List Char),
      startsWithCI pat (l ++ '\n' :: rest) = startsWithCI pat l := by
  intro pat
  induction pat with
  | nil => intro _ l rest; rfl
  | cons p ps ih =>
    intro hp l rest
    have hpn : p ≠ '\n' := fun he => hp (by rw [he]; exact List.mem_cons_self _ _)
    have hps : '\n' ∉ ps := fun hm => hp (List.mem_cons_of_mem p hm)
    cases l with
    | nil =>
      show (eqCI p '\n' && startsWithCI ps rest) = startsWithCI (p :: ps) []
      rw [eqCI_newline hpn]
      exact Bool.false_and _
    | cons c l' =>
      show (eqCI p c && startsWithCI ps (l' ++ '\n' :: rest)) =
        (eqCI p c && startsWithCI ps l')
      rw [ih hps l' rest]

theorem wordB_head_append_nl (l rest : List Char) :
    wordB ((l ++ '\n' :: rest).head?) = wordB l.head? := by
  cases l with
  | nil =>
    show wordB (some '\n') = wordB none
    decide
  | cons c l' => rfl

/-- A `\b<pat>\b` match at a position inside a line neither needs nor sees
anything past the line's terminating newline. -/
theorem tokHere_append_nl (pat : List Char) (hp : '\n' ∉ pat)
    (prev : Option Char) (l rest : List Char) :
    tokHere pat prev (l ++ '\n' :: rest) = tokHere pat prev l := by
  cases pat with
  | nil => rw [tokHere_nil_eq, tokHere_nil_eq, wordB_head_append_nl]
  | cons p ps =>
    rw [tokHere_cons_eq, tokHere_cons_eq]
    cases hs : startsWithCI (p :: ps) l with
    | false =>
      rw [startsWithCI_append_nl (p :: ps) hp l rest, hs]
      simp only [Bool.false_and]
    | true =>
      have hlen : (p :: ps).length ≤ l.length := startsWithCI_le _ _ hs
      rw [startsWithCI_append_nl (p :: ps) hp l rest,
        List.take_append_of_le_length hlen, List.drop_append_of_le_length hlen,
        wordB_head_append_nl, wordB_head_append_nl, hs]

theorem tokHere_prev_congr (pat : List Char) {p q : Option Char}
    (h : wordB p = wordB q) (s : List Char) :
    tokHere pat p s = tokHere pat q s := by
  cases pat with
  | nil => rw [tokHere_nil_eq, tokHere_nil_eq, h]
  | cons a ps => rw [tokHere_cons_eq, tokHere_cons_eq, h]

theorem tokHere_fromWord_nl (prev : Option Char) (rest : List Char) :
    tokHere fromWord prev ('\n' :: rest) = false := by
  rw [tokHere_fromWord_eq]
  have h1 : startsWithCI fromWord ('\n' :: rest) = false := by
    show (eqCI 'F' '\n' && startsWithCI ['R', 'O', 'M'] rest) = false
    rw [eqCI_newline (by decide)]
    exact Bool.false_and _
  rw [h1, Bool.false_and, Bool.false_and]

/-- On a newline-free line the cutoff search is the plain search. -/
theorem tokInLine_eq_hasTok (pat : List Char) :
    ∀ (l : List Char) (prev : Option Char), '\n' ∉ l →
      tokInLine pat prev l = hasTokFrom pat prev l := by
  intro l
  induction l with
  | nil => intro prev _; rfl
  | cons c l' ih =>
    intro prev h
    have hcn : c ≠ '\n' := fun he => h (by rw [he]; exact List.mem_cons_self _ _)
    have hfr : '\n' ∉ l' := fun hm => h (List.mem_cons_of_mem c hm)
    rw [show tokInLine pat prev (c :: l') = (tokHere pat prev (c :: l') ||
        (if c == '\n' then false else tokInLine pat (some c) l')) from rfl,
      if_neg (fun hbe => hcn (eq_of_beq hbe)), ih (some c) hfr]
    rfl

/-- The cutoff search over a line followed by a newline sees exactly the
line: it can match nothing at or beyond the newline. -/
theorem tokInLine_append_nl (pat : List Char) (hp : '\n' ∉ pat) :
    ∀ (l : List Char) (prev : Option Char) (rest : List Char), '\n' ∉ l →
      tokInLine pat prev (l ++ '\n' :: rest) = hasTokFrom pat prev l := by
  intro l
  induction l with
  | nil =>
    intro prev rest _
    show tokInLine pat prev ('\n' :: rest) = hasTokFrom pat prev []
    rw [show tokInLine pat prev ('\n' :: rest) = (tokHere pat prev ('\n' :: rest) ||
        (if '\n' == '\n' then false else tokInLine pat (some '\n') rest)) from rfl,
      if_pos (by decide : (('\n' : Char) == '\n') = true), Bool.or_false]
    have hk : tokHere pat prev ('\n' :: rest) = tokHere pat prev [] :=
      tokHere_append_nl pat hp prev [] rest
    rw [hk]
    rfl
  | cons c l' ih =>
    intro prev rest h
    have hcn : c ≠ '\n' := fun he => h (by rw [he]; exact List.mem_cons_self _ _)
    have hfr : '\n' ∉ l' := fun hm => h (List.mem_cons_of_mem c hm)
    show tokInLine pat prev (c :: (l' ++ '\n' :: rest)) = hasTokFrom pat prev (c :: l')
    rw [show tokInLine pat prev (c :: (l' ++ '\n' :: rest)) =
        (tokHere pat prev (c :: (l' ++ '\n' :: rest)) ||
          (if c == '\n' then false
            else tokInLine pat (some c) (l' ++ '\n' :: rest))) from rfl,
      if_neg (fun hbe => hcn (eq_of_beq hbe)), ih (some c) rest hfr]
    have hk : tokHere pat prev (c :: (l' ++ '\n' :: rest)) = tokHere pat prev (c :: l') :=
      tokHere_append_nl pat hp prev (c :: l') rest
    rw [hk]
    rfl

/-- On a newline-free line the lookahead body with cutoffs is the spec-side
plain FROM-then-table scan. -/
theorem fromThenTblLine_eq_plain (tbl : List Char) :
    ∀ (l : List Char) (prev : Option Char), '\n' ∉ l →
      fromThenTblLine tbl prev l = fromThenTbl tbl prev l := by
  intro l
  induction l with
  | nil => intro prev _; rfl
  | cons c l' ih =>
    intro prev h
    have hcn : c ≠ '\n' := fun he => h (by rw [he]; exact List.mem_cons_self _ _)
    have hfr : '\n' ∉ l' := fun hm => h (List.mem_cons_of_mem c hm)
    rw [show fromThenTblLine tbl prev (c :: l') =
        ((tokHere fromWord prev (c :: l') &&
          tokInLine tbl (((c :: l').take 4).getLast?) ((c :: l').drop 4)) ||
          (if c == '\n' then false else fromThenTblLine tbl (some c) l')) from rfl,
      if_neg (fun hbe => hcn (eq_of_beq hbe)), ih (some c) hfr,
      tokInLine_eq_hasTok tbl ((c :: l').drop 4) (((c :: l').take 4).getLast?)
        (fun hm => h (List.mem_of_mem_drop hm))]
    rfl

/-- The lookahead body evaluated against a line followed by a newline sees
exactly that line. -/
theorem fromThenTblLine_append_nl (tbl : List Char) (ht : '\n' ∉ tbl) :
    ∀ (l : List Char) (prev : Option Char) (rest : List Char), '\n' ∉ l →
      fromThenTblLine tbl prev (l ++ '\n' :: rest) = fromThenTbl tbl prev l := by
  intro l
  induction l with
  | nil =>
    intro prev rest _
    show fromThenTblLine tbl prev ('\n' :: rest) = false
    rw [show fromThenTblLine tbl prev ('\n' :: rest) =
        ((tokHere fromWord prev ('\n' :: rest) &&
          tokInLine tbl ((('\n' :: rest).take 4).getLast?) (('\n' :: rest).drop 4)) ||
          (if '\n' == '\n' then false else fromThenTblLine tbl (some '\n') rest)) from rfl,
      tokHere_fromWord_nl, Bool.false_and, Bool.false_or,
      if_pos (by decide : (('\n' : Char) == '\n') = true)]
  | cons c l' ih =>
    intro prev rest h
    have hcn : c ≠ '\n' := fun he => h (by rw [he]; exact List.mem_cons_self _ _)
    have hfr : '\n' ∉ l' := fun hm => h (List.mem_cons_of_mem c hm)
    rw [show fromThenTblLine tbl prev ((c :: l') ++ '\n' :: rest) =
        ((tokHere fromWord prev ((c :: l') ++ '\n' :: rest) &&
          tokInLine tbl ((((c :: l') ++ '\n' :: rest).take 4).getLast?)
            (((c :: l') ++ '\n' :: rest).drop 4)) ||
          (if c == '\n' then false
            else fromThenTblLine tbl (some c) (l' ++ '\n' :: rest))) from rfl,
      if_neg (fun hbe => hcn (eq_of_beq hbe)), ih (some c) rest hfr,
      show fromThenTbl tbl prev (c :: l') =
        ((tokHere fromWord prev (c :: l') &&
          hasTokFrom tbl (((c :: l').take 4).getLast?) ((c :: l').drop 4)) ||
          fromThenTbl tbl (some c) l') from rfl]
    have hT : tokHere fromWord prev ((c :: l') ++ '\n' :: rest) =
        tokHere fromWord prev (c :: l') :=
      tokHere_append_nl fromWord (by decide) prev (c :: l') rest
    rw [hT]
    cases hk : tokHere fromWord prev (c :: l') with
    | false => rw [Bool.false_and, Bool.false_and]
    | true =>
      rw [Bool.true_and, Bool.true_and]
      have hS : startsWithCI fromWord (c :: l') = true := by
        rw [tokHere_fromWord_eq, Bool.and_eq_true, Bool.and_eq_true] at hk
        exact hk.1.1
      have hlen : 4 ≤ (c :: l').length := startsWithCI_le fromWord (c :: l') hS
      rw [List.take_append_of_le_length hlen, List.drop_append_of_le_length hlen,
        tokInLine_append_nl tbl ht ((c :: l').drop 4) (((c :: l').take 4).getLast?)
          rest (fun hm => h (List.mem_of_mem_drop hm))]

/-- The lookahead body starting exactly at a newline fails: `FROM` cannot
match a newline and the gap cannot cross it. -/
theorem fromThenTblLine_nl (tbl : List Char) (pv : Option Char) (rest : List Char) :
    fromThenTblLine tbl pv ('\n' :: rest) = false := by
  rw [show fromThenTblLine tbl pv ('\n' :: rest) =
      ((tokHere fromWord pv ('\n' :: rest) &&
        tokInLine tbl ((('\n' :: rest).take 4).getLast?) (('\n' :: rest).drop 4)) ||
        (if '\n' == '\n' then false else fromThenTblLine tbl (some '\n') rest)) from rfl,
    tokHere_fromWord_nl, Bool.false_and, Bool.false_or,
    if_pos (by decide : (('\n' : Char) == '\n') = true)]

theorem lineUnqualHere_empty (old tbl : List Char) (prev : Option Char) :
    lineUnqualHere old tbl prev [] = false := by
  unfold lineUnqualHere
  rw [List.drop_nil]
  exact Bool.and_false _

/-- On a newline-free line the source-side occurrence test is the spec-side
one. -/
theorem unqualColHere_eq_line (old tbl : List Char)
    (prev : Option Char) (l : List Char) (h : '\n' ∉ l) :
    unqualColHere old tbl prev l = lineUnqualHere old tbl prev l := by
  unfold unqualColHere lineUnqualHere
  rw [fromThenTblLine_eq_plain tbl (l.drop old.length) _
    (fun hm => h (List.mem_of_mem_drop hm))]

/-- An occurrence test inside a line followed by a newline sees exactly the
line. -/
theorem unqualColHere_append_nl (old tbl : List Char) (hoc : '\n' ∉ old)
    (ht : '\n' ∉ tbl) (prev : Option Char) (l rest : List Char) (h : '\n' ∉ l) :
    unqualColHere old tbl prev (l ++ '\n' :: rest) = lineUnqualHere old tbl prev l := by
  unfold unqualColHere lineUnqualHere
  cases hs : startsWithCI old l with
  | false =>
    rw [startsWithCI_append_nl old hoc l rest, hs]
    simp only [Bool.false_and]
  | true =>
    have hlen : old.length ≤ l.length := startsWithCI_le _ _ hs
    rw [startsWithCI_append_nl old hoc l rest,
      List.take_append_of_le_length hlen, List.drop_append_of_le_length hlen,
      wordB_head_append_nl,
      fromThenTblLine_append_nl tbl ht (l.drop old.length) _ rest
        (fun hm => h (List.mem_of_mem_drop hm)), hs]

/-- No occurrence test can succeed at the position of a newline. -/
theorem unqualColHere_nl (old tbl : List Char) (hoc : '\n' ∉ old)
    (prev : Option Char) (rest : List Char) :
    unqualColHere old tbl prev ('\n' :: rest) = false := by
  cases old with
  | nil =>
    show (((startsWithCI ([] : List Char) ('\n' :: rest) && !(wordB prev)) &&
        !(wordB (('\n' :: rest).head?))) &&
      fromThenTblLine tbl prev ('\n' :: rest)) = false
    rw [fromThenTblLine_nl tbl prev rest]
    exact Bool.and_false _
  | cons p ps =>
    have hpn : p ≠ '\n' := fun he => hoc (by rw [he]; exact List.mem_cons_self _ _)
    have hsw : startsWithCI (p :: ps) ('\n' :: rest) = false := by
      show (eqCI p '\n' && startsWithCI ps rest) = false
      rw [eqCI_newline hpn]
      exact Bool.false_and _
    unfold unqualColHere
    rw [hsw]
    simp only [Bool.false_and]

theorem fromThenTbl_prev_congr (tbl : List Char) {p q : Option Char}
    (h : wordB p = wordB q) (s : List Char) :
    fromThenTbl tbl p s = fromThenTbl tbl q s := by
  cases s with
  | nil => rfl
  | cons c rest =>
    show ((tokHere fromWord p (c :: rest) &&
        hasTokFrom tbl (((c :: rest).take 4).getLast?) ((c :: rest).drop 4)) ||
        fromThenTbl tbl (some c) rest) =
      ((tokHere fromWord q (c :: rest) &&
        hasTokFrom tbl (((c :: rest).take 4).getLast?) ((c :: rest).drop 4)) ||
        fromThenTbl tbl (some c) rest)
    rw [tokHere_prev_congr fromWord h (c :: rest)]

theorem lineUnqualHere_prev_congr (old tbl : List Char) {p q : Option Char}
    (h : wordB p = wordB q) (s : List Char) :
    lineUnqualHere old tbl p s = lineUnqualHere old tbl q s := by
  unfold lineUnqualHere
  rw [h]
  cases hg : (s.take old.length).getLast? with
  | none =>
    show (_ && fromThenTbl tbl p (s.drop old.length)) =
      (_ && fromThenTbl tbl q (s.drop old.length))
    rw [fromThenTbl_prev_congr tbl h (s.drop old.length)]
  | some a => rfl

theorem lineUnqualScan_prev_congr (old tbl : List Char) {p q : Option Char}
    (h : wordB p = wordB q) (s : List Char) :
    lineUnqualScan old tbl p s = lineUnqualScan old tbl q s := by
  cases s with
  | nil =>
    show lineUnqualHere old tbl p [] = lineUnqualHere old tbl q []
    exact lineUnqualHere_prev_congr old tbl h []
  | cons c rest =>
    show (lineUnqualHere old tbl p (c :: rest) || lineUnqualScan old tbl (some c) rest) =
      (lineUnqualHere old tbl q (c :: rest) || lineUnqualScan old tbl (some c) rest)
    rw [lineUnqualHere_prev_congr old tbl h (c :: rest)]

theorem scanLinesFrom_congr (old tbl : List Char) {p q : Option Char}
    (h : wordB p = wordB q) (ls : List (List Char)) :
    scanLinesFrom old tbl p ls = scanLinesFrom old tbl q ls := by
  cases ls with
  | nil => rfl
  | cons l ls' =>
    show (lineUnqualScan old tbl p l || scanLinesFrom old tbl none ls') =
      (lineUnqualScan old tbl q l || scanLinesFrom old tbl none ls')
    rw [lineUnqualScan_prev_congr old tbl h l]

/-- On a newline-free text the source-side scan is the spec-side line scan. -/
theorem unqualColHasFrom_line (old tbl : List Char) :
    ∀ (l : List Char) (prev : Option Char), '\n' ∉ l →
      unqualColHasFrom old tbl prev l = lineUnqualScan old tbl prev l := by
  intro l
  induction l with
  | nil =>
    intro prev h
    show unqualColHere old tbl prev [] = lineUnqualHere old tbl prev []
    exact unqualColHere_eq_line old tbl prev [] h
  | cons c l' ih =>
    intro prev h
    show (unqualColHere old tbl prev (c :: l') || unqualColHasFrom old tbl (some c) l') =
      (lineUnqualHere old tbl prev (c :: l') || lineUnqualScan old tbl (some c) l')
    rw [unqualColHere_eq_line old tbl prev (c :: l') h,
      ih (some c) (fun hm => h (List.mem_cons_of_mem c hm))]

/-- Splitting off the first line of the source-side scan. -/
theorem unqualColHasFrom_split (old tbl : List Char) (hoc : '\n' ∉ old)
    (ht : '\n' ∉ tbl) :
    ∀ (l : List Char) (prev : Option Char) (rest : List Char), '\n' ∉ l →
      unqualColHasFrom old tbl prev (l ++ '\n' :: rest) =
        (lineUnqualScan old tbl prev l || unqualColHasFrom old tbl (some '\n') rest) := by
  intro l
  induction l with
  | nil =>
    intro prev rest _
    show (unqualColHere old tbl prev ('\n' :: rest) ||
        unqualColHasFrom old tbl (some '\n') rest) =
      (lineUnqualScan old tbl prev [] || unqualColHasFrom old tbl (some '\n') rest)
    rw [unqualColHere_nl old tbl hoc prev rest,
      show lineUnqualScan old tbl prev [] = lineUnqualHere old tbl prev [] from rfl,
      lineUnqualHere_empty old tbl prev]
  | cons c l' ih =>
    intro prev rest h
    have hfr : '\n' ∉ l' := fun hm => h (List.mem_cons_of_mem c hm)
    show (unqualColHere old tbl prev ((c :: l') ++ '\n' :: rest) ||
        unqualColHasFrom old tbl (some c) (l' ++ '\n' :: rest)) =
      ((lineUnqualHere old tbl prev (c :: l') || lineUnqualScan old tbl (some c) l') ||
        unqualColHasFrom old tbl (some '\n') rest)
    rw [unqualColHere_append_nl old tbl hoc ht prev (c :: l') rest h,
      ih (some c) rest hfr, Bool.or_assoc]

theorem joinLines_cons_head (x : Char) (l : List Char) (ls : List (List Char)) :
    joinLines ((x :: l) :: ls) = x :: joinLines (l :: ls) := by
  cases ls with
  | nil => rfl
  | cons y ys =>
    show (List.intersperse ['\n'] ((x :: l) :: y :: ys)).flatten =
      x :: (List.intersperse ['\n'] (l :: y :: ys)).flatten
    rw [show List.intersperse ['\n'] ((x :: l) :: y :: ys) =
        (x :: l) :: ['\n'] :: List.intersperse ['\n'] (y :: ys) from rfl,
      show List.intersperse ['\n'] (l :: y :: ys) =
        l :: ['\n'] :: List.intersperse ['\n'] (y :: ys) from rfl,
      List.flatten_cons, List.flatten_cons, List.flatten_cons, List.flatten_cons]
    rfl

/-- The source-side scan of a newline-joined list of lines is the line-wise
scan: the same-line decomposition of the audit trigger. -/
theorem unqualColHasFrom_joins (old tbl : List Char) (hoc : '\n' ∉ old)
    (ht : '\n' ∉ tbl) :
    ∀ (ls : List (List Char)) (prev : Option Char), (∀ l ∈ ls, '\n' ∉ l) →
      unqualColHasFrom old tbl prev (joinLines ls) = scanLinesFrom old tbl prev ls := by
  intro ls
  induction ls with
  | nil =>
    intro prev _
    show unqualColHere old tbl prev [] = false
    rw [unqualColHere_eq_line old tbl prev [] (by simp), lineUnqualHere_empty]
  | cons l ls' ih =>
    intro prev h
    cases ls' with
    | nil =>
      show unqualColHasFrom old tbl prev (joinLines [l]) =
        (lineUnqualScan old tbl prev l || false)
      rw [Bool.or_false,
        show joinLines [l] = l from by
          show (List.intersperse ['\n'] [l]).flatten = l
          rw [show List.intersperse ['\n'] [l] = [l] from rfl, List.flatten_cons]
          exact List.append_nil l]
      exact unqualColHasFrom_line old tbl l prev (h l (List.mem_cons_self _ _))
    | cons l2 ls'' =>
      have hjoin : joinLines (l :: l2 :: ls'') = l ++ '\n' :: joinLines (l2 :: ls'') := by
        show (List.intersperse ['\n'] (l :: l2 :: ls'')).flatten =
          l ++ '\n' :: (List.intersperse ['\n'] (l2 :: ls'')).flatten
        rw [show List.intersperse ['\n'] (l :: l2 :: ls'') =
            l :: ['\n'] :: List.intersperse ['\n'] (l2 :: ls'') from rfl,
          List.flatten_cons, List.flatten_cons]
        rfl
      rw [hjoin,
        unqualColHasFrom_split old tbl hoc ht l prev (joinLines (l2 :: ls''))
          (h l (List.mem_cons_self _ _)),
        ih (some '\n') (fun x hx => h x (List.mem_cons_of_mem l hx)),
        scanLinesFrom_congr old tbl (by decide : wordB (some '\n') = wordB none)
          (l2 :: ls'')]
      rfl

theorem splitLines_cons (c : Char) (rest : List Char) :
    splitLines (c :: rest) =
      (if c == '\n' then [] :: splitLines rest
        else match splitLines rest with
          | l :: ls => (c :: l) :: ls
          | [] => [[c]]) := rfl

theorem splitLines_ne_nil : ∀ s : List Char, splitLines s ≠ [] := by
  intro s
  cases s with
  | nil => exact fun h => List.noConfusion h
  | cons c rest =>
    rw [splitLines_cons]
    by_cases hc : (c == '\n') = true
    · rw [if_pos hc]
      exact fun h => List.noConfusion h
    · rw [if_neg hc]
      cases hs : splitLines rest with
      | nil => exact fun h => List.noConfusion h
      | cons a as => exact fun h => List.noConfusion h

theorem splitLines_no_nl : ∀ (s l : List Char), l ∈ splitLines s → '\n' ∉ l := by
  intro s
  induction s with
  | nil =>
    intro l hl hm
    have hl' : l = [] := List.mem_singleton.mp hl
    subst hl'
    simp at hm
  | cons c rest ih =>
    intro l hl hm
    rw [splitLines_cons] at hl
    by_cases hc : (c == '\n') = true
    · rw [if_pos hc] at hl
      rcases List.mem_cons.mp hl with h1 | h2
      · subst h1; simp at hm
      · exact ih l h2 hm
    · rw [if_neg hc] at hl
      have hcn : c ≠ '\n' := fun he => hc (by rw [he]; decide)
      cases hs : splitLines rest with
      | nil =>
        rw [hs] at hl
        have hl' : l ∈ [[c]] := hl
        have hlc := List.mem_singleton.mp hl'
        subst hlc
        rcases List.mem_cons.mp hm with h3 | h4
        · exact hcn h3.symm
        · simp at h4
      | cons a as =>
        rw [hs] at hl
        have hl' : l ∈ (c :: a) :: as := hl
        rcases List.mem_cons.mp hl' with h1 | h2
        · subst h1
          rcases List.mem_cons.mp hm with h3 | h4
          · exact hcn h3.symm
          · exact ih a (by rw [hs]; exact List.mem_cons_self _ _) h4
        · exact ih l (by rw [hs]; exact List.mem_cons_of_mem _ h2) hm

theorem joinLines_splitLines : ∀ s : List Char, joinLines (splitLines s) = s := by
  intro s
  induction s with
  | nil =>
    show joinLines [[]] = []
    rfl
  | cons c rest ih =>
    rw [splitLines_cons]
    by_cases hc : (c == '\n') = true
    · rw [if_pos hc]
      have hcc : c = '\n' := eq_of_beq hc
      subst hcc
      cases hs : splitLines rest with
      | nil => exact absurd hs (splitLines_ne_nil rest)
      | cons a as =>
        have hj : joinLines (([] : List Char) :: a :: as) =
            '\n' :: joinLines (a :: as) := by
          show (List.intersperse ['\n'] (([] : List Char) :: a :: as)).flatten =
            '\n' :: (List.intersperse ['\n'] (a :: as)).flatten
          rw [show List.intersperse ['\n'] (([] : List Char) :: a :: as) =
              ([] : List Char) :: ['\n'] :: List.intersperse ['\n'] (a :: as) from rfl,
            List.flatten_cons, List.flatten_cons]
          rfl
        rw [hj, show joinLines (a :: as) = joinLines (splitLines rest) from by rw [hs],
          ih]
    · rw [if_neg hc]
      cases hs : splitLines rest with
      | nil => exact absurd hs (splitLines_ne_nil rest)
      | cons a as =>
        show joinLines ((c :: a) :: as) = c :: rest
        rw [joinLines_cons_head c a as,
          show joinLines (a :: as) = joinLines (splitLines rest) from by rw [hs], ih]

theorem scanLinesFrom_none (old tbl : List Char) :
    ∀ ls : List (List Char),
      scanLinesFrom old tbl none ls = ls.any (lineUnqualScan old tbl none) := by
  intro ls
  induction ls with
  | nil => rfl
  | cons l ls' ih =>
    show (lineUnqualScan old tbl none l || scanLinesFrom old tbl none ls') =
      (l :: ls').any (lineUnqualScan old tbl none)
    rw [ih, List.any_cons]

/-- C7 (amended).  For every (table, old_column, new_column) triple whose
table name is made of word characters (the source interpolates it into the
lookahead without `re.escape`, so that is where the pattern reads it as a
literal) and whose old column name contains no newline, and for every text:
the auditor emits the column-mapping finding iff the text contains the
qualified form `table.old_column`, or some single line of the text, scanned
in isolation, contains a lookaround-delimited occurrence of the old column
name followed — within that same line — by a FROM token and then the table
token.  A FROM clause anywhere else in the text does not trigger the
finding: the lookahead's `.` cannot cross a newline, so the trigger
decomposes line-wise. -/
theorem C7_column_audit_amended (tbl old new s : String)
    (htbl : ∀ c ∈ tbl.data, isWordChar c = true) (hoc : '\n' ∉ old.data) :
    colIssue tbl s (old, new) ≠ [] ↔
      (qualTblHasFrom tbl.data old.data none s.data = true ∨
        ∃ line ∈ splitLines s.data,
          lineUnqualScan old.data tbl.data none line = true) := by
  have htnl : '\n' ∉ tbl.data := fun hm => absurd (htbl '\n' hm) (by decide)
  have hB : unqualColHasFrom old.data tbl.data none s.data =
      (splitLines s.data).any (lineUnqualScan old.data tbl.data none) := by
    conv_lhs => rw [← joinLines_splitLines s.data]
    rw [unqualColHasFrom_joins old.data tbl.data hoc htnl (splitLines s.data) none
      (fun l hl => splitLines_no_nl s.data l hl),
      scanLinesFrom_none old.data tbl.data (splitLines s.data)]
  have hco : colIssue tbl s (old, new) =
      (if (qualTblHasFrom tbl.data old.data none s.data ||
          unqualColHasFrom old.data tbl.data none s.data) = true then
        ["COLUMN MAPPING: " ++ old ++ " -> Should be " ++ new ++
          " (in table " ++ tbl ++ ")"]
      else []) := rfl
  rw [hco, hB]
  by_cases hc : (qualTblHasFrom tbl.data old.data none s.data ||
      (splitLines s.data).any (lineUnqualScan old.data tbl.data none)) = true
  · rw [if_pos hc]
    rw [Bool.or_eq_true, List.any_eq_true] at hc
    exact iff_of_true (List.cons_ne_nil _ _) hc
  · rw [if_neg hc]
    constructor
    · intro hne
      exact absurd rfl hne
    · intro hor
      exact absurd (by
        rw [Bool.or_eq_true, List.any_eq_true]
        exact hor) hc

/-- Witness for `C7_column_audit_amended`: at the mapping triple
(client, cust_id, client_id) the hypotheses hold, and on the one-line text
`SELECT cust_id FROM client` — old column, then FROM, then the table token,
all on one line — the finding is emitted. -/
theorem C7_column_audit_amended_witness :
    (∀ c ∈ ("client" : String).data, isWordChar c = true) ∧
    '\n' ∉ ("cust_id" : String).data ∧
    colIssue "client" "SELECT cust_id FROM client" ("cust_id", "client_id") ≠ [] :=
  ⟨by decide, by decide,
    (C7_column_audit_amended "client" "cust_id" "client_id"
      "SELECT cust_id FROM client" (by decide) (by decide)).mpr
      (Or.inr ⟨"SELECT cust_id FROM client".data, by decide, by decide⟩)⟩

/-- C7 counterexample.  `SELECT cust_id\nFROM client` contains an unqualified
boundary-delimited `cust_id` and a FROM clause (elsewhere in the text) naming
`client`, so the claim requires a column-mapping finding; the auditor emits
none, because the pattern's lookahead must find FROM and the table after the
occurrence on the same line. -/
theorem C7_column_audit_counterexample :
    checkMappings [("customers", "client")] [("client", [("cust_id", "client_id")])]
        "SELECT cust_id\nFROM client" = [] ∧
    hasTokNWFrom "cust_id".data none "SELECT cust_id\nFROM client".data = true ∧
    fromCheckStr "client" "SELECT cust_id\nFROM client" = true := by
  decide

/-!
## Last-wins construction of the table dictionary (C9)
-/

theorem find_map_insert (m : List (String × String)) (k v : String)
    (h : m.any (fun p => p.1 == k) = true) :
    (m.map (fun p => if p.1 == k then (k, v) else p)).find? (fun p => p.1 == k) =
      some (k, v) := by
  induction m with
  | nil => simp at h
  | cons p m ih =>
    rw [List.map_cons]
    by_cases hp : (p.1 == k) = true
    · rw [if_pos hp]
      exact List.find?_cons_of_pos _ (by simp)
    · rw [if_neg hp, List.find?_cons_of_neg _ (by simp [hp])]
      have h' : m.any (fun p => p.1 == k) = true := by
        simpa [List.any_cons, hp] using h
      exact ih h'

theorem find_none_of_any_false (m : List (String × String)) (k : String)
    (h : m.any (fun p => p.1 == k) = false) :
    m.find? (fun p => p.1 == k) = none := by
  rw [List.find?_eq_none]
  intro x hx
  rcases List.any_eq_false.mp h x hx with hb
  simp at hb
  simp [hb]

theorem dictLookup_insert (m : List (String × String)) (k v : String) :
    dictLookup (dictInsert m k v) k = some v := by
  unfold dictInsert dictLookup
  by_cases h : m.any (fun p => p.1 == k) = true
  · rw [if_pos h, find_map_insert m k v h]
    rfl
  · rw [if_neg h, List.find?_append,
      find_none_of_any_false m k (Bool.eq_false_iff.mpr h)]
    simp [List.find?]

theorem find_map_keep (m : List (String × String)) (o n k : String)
    (hok : (o == k) = false) :
    (m.map (fun p => if p.1 == o then (o, n) else p)).find? (fun p => p.1 == k) =
      m.find? (fun p => p.1 == k) := by
  induction m with
  | nil => rfl
  | cons p m ih =>
    rw [List.map_cons]
    by_cases hp : (p.1 == o) = true
    · have hp1 : p.1 = o := eq_of_beq hp
      have hpk : (p.1 == k) = false := by rw [hp1]; exact hok
      rw [if_pos hp, List.find?_cons_of_neg _ (by simp [hok]),
        List.find?_cons_of_neg _ (by simp [hpk])]
      exact ih
    · rw [if_neg hp]
      by_cases hpk : (p.1 == k) = true
      · rw [List.find?_cons_of_pos _ (by simp [hpk]),
          List.find?_cons_of_pos _ (by simp [hpk])]
      · rw [List.find?_cons_of_neg _ (by simp [hpk]),
          List.find?_cons_of_neg _ (by simp [hpk])]
        exact ih

theorem dictLookup_insert_ne (m : List (String × String)) (o n k : String)
    (hok : (o == k) = false) :
    dictLookup (dictInsert m o n) k = dictLookup m k := by
  unfold dictInsert dictLookup
  by_cases h : m.any (fun p => p.1 == o) = true
  · rw [if_pos h, find_map_keep m o n k hok]
  · rw [if_neg h, List.find?_append]
    have : ([(o, n)].find? (fun p => p.1 == k)) = none := by simp [List.find?, hok]
    cases hf : m.find? (fun p => p.1 == k) with
    | none => simp [this]
    | some p => simp

theorem foldl_lookup_invariant {α : Type} (k : String)
    (step : List (String × String) → α → List (String × String)) :
    ∀ (rows : List α),
    (∀ r ∈ rows, ∀ m, dictLookup (step m r) k = dictLookup m k) →
    ∀ m, dictLookup (rows.foldl step m) k = dictLookup m k := by
  intro rows
  induction rows with
  | nil => intro _ m; rfl
  | cons r rows ih =>
    intro h m
    rw [List.foldl_cons, ih (fun r hm => h r (List.mem_cons_of_mem _ hm))]
    exact h r (List.mem_cons_self r rows) m

theorem dictInsert_keys_nodup (m : List (String × String)) (k v : String)
    (h : (m.map (fun p => p.1)).Nodup) :
    ((dictInsert m k v).map (fun p => p.1)).Nodup := by
  unfold dictInsert
  by_cases ha : m.any (fun p => p.1 == k) = true
  · rw [if_pos ha, List.map_map]
    have : ∀ p ∈ m, ((fun p : String × String => p.1) ∘
        (fun p => if p.1 == k then (k, v) else p)) p = p.1 := by
      intro p _
      by_cases hp : (p.1 == k) = true
      · simp only [Function.comp_apply, if_pos hp]
        exact (eq_of_beq hp).symm
      · simp only [Function.comp_apply, if_neg hp]
    rw [List.map_congr_left this]
    exact h
  · rw [if_neg ha, List.map_append]
    refine List.Nodup.append h (by simp) ?_
    intro x hx hy
    simp only [List.map_cons, List.map_nil, List.mem_singleton] at hy
    subst hy
    rcases List.mem_map.mp hx with ⟨p, hp, hpk⟩
    exact (List.any_eq_false.mp (Bool.eq_false_iff.mpr ha) p hp) (beq_iff_eq.mpr hpk)

theorem foldl_keys_nodup {α : Type}
    (step : List (String × String) → α → List (String × String))
    (hstep : ∀ m r, (m.map (fun p => p.1)).Nodup →
      ((step m r).map (fun p => p.1)).Nodup) :
    ∀ (rows : List α) (m : List (String × String)),
    (m.map (fun p => p.1)).Nodup → ((rows.foldl step m).map (fun p => p.1)).Nodup := by
  intro rows
  induction rows with
  | nil => intro m h; exact h
  | cons r rows ih =>
    intro m h
    rw [List.foldl_cons]
    exact ih _ (hstep m r h)

/-- The table-dictionary pipeline on a well-formed rule frame: every row has
both cells present, so `dropna` keeps all rows, value-stripping trims both
cells, and the dictionary is the last-wins fold of the trimmed pairs. -/
theorem tableDictOf_wellformed (Q : List (String × String)) :
    tableDictOf ⟨["OldTableName", "NewTableName"], Q.map (fun p => [some p.1, some p.2])⟩ =
      some (Q.foldl (fun m q => dictInsert m (pyTrim q.1) (pyTrim q.2)) []) := by
  have hsc : stripCols ⟨["OldTableName", "NewTableName"],
      Q.map (fun p => [some p.1, some p.2])⟩ =
      ⟨["OldTableName", "NewTableName"], Q.map (fun p => [some p.1, some p.2])⟩ := by
    unfold stripCols
    congr 1
  have hcond : (["OldTableName", "NewTableName"].all fun c =>
      (DFrame.mk ["OldTableName", "NewTableName"]
        (Q.map (fun p => [some p.1, some p.2]))).cols.contains c) = true := rfl
  have hfilter : (Q.map (fun p : String × String => [some p.1, some p.2])).filter
      (fun r => ["OldTableName", "NewTableName"].all
        (fun c => (cellOf ⟨["OldTableName", "NewTableName"],
          Q.map (fun p => [some p.1, some p.2])⟩ r c).isSome)) =
      Q.map (fun p => [some p.1, some p.2]) := by
    apply List.filter_eq_self.mpr
    intro r hr
    rcases List.mem_map.mp hr with ⟨q, _, rfl⟩
    rfl
  have hdrop : dropna ⟨["OldTableName", "NewTableName"],
      Q.map (fun p => [some p.1, some p.2])⟩ ["OldTableName", "NewTableName"] =
      Except.ok ⟨["OldTableName", "NewTableName"],
        Q.map (fun p => [some p.1, some p.2])⟩ := by
    unfold dropna
    rw [if_pos hcond, hfilter]
  have hstrip : stripColVals (stripColVals ⟨["OldTableName", "NewTableName"],
      Q.map (fun p => [some p.1, some p.2])⟩ "OldTableName") "NewTableName" =
      ⟨["OldTableName", "NewTableName"],
        Q.map (fun p => [some (pyTrim p.1), some (pyTrim p.2)])⟩ := by
    show DFrame.mk _ (((Q.map (fun p => [some p.1, some p.2])).map
      (stripAt 0)).map (stripAt 1)) = _
    rw [List.map_map, List.map_map]
    rfl
  unfold tableDictOf
  rw [hsc, hdrop]
  show some (tableToDict (stripColVals (stripColVals _ "OldTableName") "NewTableName")) = _
  rw [hstrip]
  show some (((Q.map (fun p => [some (pyTrim p.1), some (pyTrim p.2)])).foldl _ [])) = _
  rw [List.foldl_map]
  rfl

/-- C9.  Last-wins uniqueness of table rules: when two rule rows share the
same trimmed old name, the constructed table dictionary maps that old name to
the later row's (trimmed) new name — provided no later row re-binds it — and
the keys of the built dictionary are pairwise distinct. -/
theorem C9_last_wins (pre mid post : List (String × String)) (o1 n1 o2 n2 : String)
    (heq : pyTrim o1 = pyTrim o2)
    (hpost : ∀ p ∈ post, pyTrim p.1 ≠ pyTrim o2) :
    ∃ m, tableDictOf ⟨["OldTableName", "NewTableName"],
        (pre ++ [(o1, n1)] ++ mid ++ [(o2, n2)] ++ post).map
          (fun p => [some p.1, some p.2])⟩ = some m ∧
      dictLookup m (pyTrim o2) = some (pyTrim n2) ∧
      (m.map (fun p => p.1)).Nodup := by
  refine ⟨_, tableDictOf_wellformed _, ?_, ?_⟩
  · rw [List.foldl_append, List.foldl_append, List.foldl_append, List.foldl_append]
    rw [foldl_lookup_invariant (pyTrim o2)
      (fun m q => dictInsert m (pyTrim q.1) (pyTrim q.2)) post
      (fun q hq m => dictLookup_insert_ne m _ _ _
        (beq_eq_false_iff_ne.mpr (hpost q hq)))]
    show dictLookup (dictInsert _ (pyTrim o2) (pyTrim n2)) (pyTrim o2) = _
    exact dictLookup_insert _ _ _
  · refine foldl_keys_nodup _ ?_ _ [] (by simp)
    intro m q h
    exact dictInsert_keys_nodup m _ _ h

/-- Witness for C9 at two concrete duplicate rules. -/
theorem C9_last_wins_witness :
    pyTrim " customers " = pyTrim "customers" ∧
    (∃ m, tableDictOf ⟨["OldTableName", "NewTableName"],
        (([] : List (String × String)) ++ [(" customers ", "legacy")] ++ [] ++
          [("customers", "client")] ++ []).map
            (fun p : String × String => [some p.1, some p.2])⟩ = some m ∧
      dictLookup m (pyTrim "customers") = some (pyTrim "client") ∧
      (m.map (fun p => p.1)).Nodup) :=
  ⟨by decide, C9_last_wins [] [] [] " customers " "legacy" "customers" "client"
    (by decide) (by intro p hp; cases hp)⟩

/-!
## Run-decomposition lemmas
-/

theorem runs_flatten : ∀ s : List Char, (runs s).flatten = s := by
  intro s
  induction s with
  | nil => rfl
  | cons c rest ih =>
    unfold runs
    cases h : runs rest with
    | nil =>
      rw [h] at ih
      simp at ih
      simp [ih]
    | cons r rs =>
      cases r with
      | nil =>
        rw [h] at ih
        simpa using ih
      | cons d r' =>
        rw [h] at ih
        by_cases hc : (isWordChar c == isWordChar d) = true
        · simp only [hc, if_true, List.flatten_cons]
          simp only [List.flatten_cons] at ih
          simp [ih]
        · simp only [hc, if_false, List.flatten_cons]
          simp only [List.flatten_cons] at ih
          simp [ih]

theorem runs_head : ∀ (c : Char) (rest : List Char),
    ∃ l rs, runs (c :: rest) = (c :: l) :: rs := by
  intro c rest
  unfold runs
  cases runs rest with
  | nil => exact ⟨[], [], rfl⟩
  | cons r rs =>
    cases r with
    | nil => exact ⟨[], [] :: rs, rfl⟩
    | cons d r' =>
      by_cases hc : (isWordChar c == isWordChar d) = true
      · exact ⟨d :: r', rs, by simp [hc]⟩
      · exact ⟨[], (d :: r') :: rs, by simp [hc]⟩

theorem runs_cons_eq (c : Char) (rest : List Char) : runs (c :: rest) =
    match runs rest with
    | [] => [[c]]
    | [] :: rs => [c] :: [] :: rs
    | (d :: r) :: rs =>
      if isWordChar c == isWordChar d then (c :: d :: r) :: rs
      else [c] :: (d :: r) :: rs := rfl

theorem runAlt_runs : ∀ (rest : List Char) (c : Char),
    runAlt (isWordChar c) (runs (c :: rest)) = true := by
  intro rest
  induction rest with
  | nil =>
    intro c
    show runAlt (isWordChar c) [[c]] = true
    simp [runAlt]
  | cons d rest' ih =>
    intro c
    have hd := ih d
    rcases runs_head d rest' with ⟨l, rs, hr⟩
    rw [hr] at hd
    unfold runAlt at hd
    rw [Bool.and_eq_true, Bool.and_eq_true] at hd
    obtain ⟨⟨_, hall⟩, htail⟩ := hd
    have hallP : ∀ x ∈ d :: l, isWordChar x = isWordChar d :=
      fun x hx => eq_of_beq (List.all_eq_true.mp hall x hx)
    rw [runs_cons_eq, hr]
    show runAlt (isWordChar c)
      (if isWordChar c == isWordChar d then (c :: d :: l) :: rs
        else [c] :: (d :: l) :: rs) = true
    by_cases hc : (isWordChar c == isWordChar d) = true
    · rw [if_pos hc]
      have hcd : isWordChar c = isWordChar d := eq_of_beq hc
      unfold runAlt
      rw [Bool.and_eq_true, Bool.and_eq_true]
      refine ⟨⟨by simp, ?_⟩, ?_⟩
      · apply List.all_eq_true.mpr
        intro x hx
        rcases List.mem_cons.mp hx with rfl | hx2
        · simp
        · exact beq_iff_eq.mpr ((hallP x hx2).trans hcd.symm)
      · rw [hcd]
        exact htail
    · rw [if_neg hc]
      have hcd : isWordChar d = !isWordChar c := by
        cases hw : isWordChar c <;> cases hw2 : isWordChar d <;> simp_all
      unfold runAlt
      rw [Bool.and_eq_true, Bool.and_eq_true]
      refine ⟨⟨by simp, by simp⟩, ?_⟩
      unfold runAlt
      rw [Bool.and_eq_true, Bool.and_eq_true]
      refine ⟨⟨by simp, ?_⟩, ?_⟩
      · apply List.all_eq_true.mpr
        intro x hx
        exact beq_iff_eq.mpr ((hallP x hx).trans hcd)
      · rw [hcd] at htail
        exact htail

theorem runs_run_prepend : ∀ (r t : List Char) (w : Bool), r ≠ [] →
    (∀ c ∈ r, isWordChar c = w) →
    (t = [] ∨ ∃ d t', t = d :: t' ∧ isWordChar d = !w) →
    runs (r ++ t) = r :: runs t := by
  intro r
  induction r with
  | nil => intro t w h; exact absurd rfl h
  | cons x r' ih =>
    intro t w _ hall ht
    cases r' with
    | nil =>
      rcases ht with rfl | ⟨d, t', rfl, hd⟩
      · simp [runs]
      · rcases runs_head d t' with ⟨l, rs, hr⟩
        have hx : isWordChar x = w := hall x (by simp)
        have hne : (isWordChar x == isWordChar d) = false := by
          rw [hx, hd]
          cases w <;> simp
        show runs (x :: d :: t') = [x] :: runs (d :: t')
        rw [runs_cons_eq, hr]
        simp only [hne, Bool.false_eq_true, if_false]
    | cons y r'' =>
      have hrec : runs ((y :: r'') ++ t) = (y :: r'') :: runs t := by
        refine ih t w (by simp) ?_ ht
        intro c hc
        exact hall c (List.mem_cons_of_mem _ hc)
      have hx : isWordChar x = w := hall x (by simp)
      have hy : isWordChar y = w := hall y (by simp)
      show runs (x :: ((y :: r'') ++ t)) = _
      rw [runs_cons_eq, hrec]
      simp only [hx, hy, beq_self_eq_true, if_true]

theorem runs_of_alt : ∀ (rs : List (List Char)) (w : Bool), runAlt w rs = true →
    runs rs.flatten = rs := by
  intro rs
  induction rs with
  | nil => intro w _; rfl
  | cons r rs' ih =>
    intro w h
    unfold runAlt at h
    rw [Bool.and_eq_true, Bool.and_eq_true] at h
    obtain ⟨⟨hne, hall⟩, htail⟩ := h
    have hrne : r ≠ [] := by
      cases r
      · simp at hne
      · simp
    have hallw : ∀ c ∈ r, isWordChar c = w := by
      intro c hc
      exact eq_of_beq (List.all_eq_true.mp hall c hc)
    have ht : rs'.flatten = [] ∨ ∃ d t', rs'.flatten = d :: t' ∧ isWordChar d = !w := by
      cases rs' with
      | nil => exact Or.inl rfl
      | cons r2 rs'' =>
        unfold runAlt at htail
        rw [Bool.and_eq_true, Bool.and_eq_true] at htail
        obtain ⟨⟨hne2, hall2⟩, _⟩ := htail
        cases r2 with
        | nil => simp at hne2
        | cons e r2' =>
          refine Or.inr ⟨e, r2' ++ rs''.flatten, by simp, ?_⟩
          exact eq_of_beq (List.all_eq_true.mp hall2 e (by simp))
    show runs (r ++ rs'.flatten) = r :: rs'
    rw [runs_run_prepend r rs'.flatten w hrne hallw ht, ih (!w) htail]

/-!
## Characterizing `\b<old>\b` matches of word-only patterns
-/

theorem wordB_head_of_all {l : List Char} {w : Bool} (hne : l ≠ [])
    (h : ∀ c ∈ l, isWordChar c = w) : wordB l.head? = w := by
  cases l with
  | nil => exact absurd rfl hne
  | cons c cs => exact h c (by simp)

theorem wordB_getLast_of_all {l : List Char} {w : Bool} (hne : l ≠ [])
    (h : ∀ c ∈ l, isWordChar c = w) : wordB l.getLast? = w := by
  rw [List.getLast?_eq_getLast l hne]
  exact h _ (List.getLast_mem hne)

theorem tokHere_false_of_word_word (old : List Char) (prev : Option Char)
    (s : List Char) (h1 : wordB prev = true) (h2 : wordB s.head? = true) :
    tokHere old prev s = false := by
  unfold tokHere
  by_cases he : old.isEmpty = true
  · simp [he, h1, h2]
  · simp [he, h1, h2]

theorem eqCI_false_of_class {a b : Char} (ha : isWordChar a = true)
    (hb : isWordChar b = false) : eqCI a b = false := by
  cases h : eqCI a b
  · rfl
  · have := eqCI_wordClass (eqCI_iff.mp h)
    rw [ha, hb] at this
    cases this

theorem tokHere_false_of_nonword_head (old : List Char) (hne : old ≠ [])
    (hw : old.all isWordChar = true) (prev : Option Char) (s : List Char)
    (h : s = [] ∨ wordB s.head? = false) : tokHere old prev s = false := by
  have hempty : old.isEmpty = false := by
    cases old
    · exact absurd rfl hne
    · rfl
  cases old with
  | nil => exact absurd rfl hne
  | cons o os =>
    have ho : isWordChar o = true := List.all_eq_true.mp hw o (by simp)
    rcases h with rfl | hnw
    · simp [tokHere, startsWithCI]
    · cases s with
      | nil => simp [tokHere, startsWithCI]
      | cons c cs =>
        have hc : isWordChar c = false := hnw
        unfold tokHere
        rw [hempty]
        simp only [Bool.false_eq_true, if_false]
        rw [show startsWithCI (o :: os) (c :: cs) =
          (eqCI o c && startsWithCI os cs) from rfl]
        rw [eqCI_false_of_class ho hc]
        simp

/-- A `\b<old>\b` match of a word-only `old` at the start of a maximal word
run `r` (non-word or absent context on both sides) happens exactly when the
whole run equals `old` case-insensitively. -/
theorem tokHere_word_run (old : List Char) (hw : old.all isWordChar = true)
    (hne : old ≠ []) (r t : List Char) (hrne : r ≠ [])
    (hrw : ∀ c ∈ r, isWordChar c = true)
    (ht : t = [] ∨ wordB t.head? = false)
    (prev : Option Char) (hprev : wordB prev = false) :
    tokHere old prev (r ++ t) = true ↔ lowerL r = lowerL old := by
  have hempty : old.isEmpty = false := by
    cases old
    · exact absurd rfl hne
    · rfl
  have holen : 1 ≤ old.length := by
    cases old
    · exact absurd rfl hne
    · simp
  have hrlen : 1 ≤ r.length := by
    cases r
    · exact absurd rfl hrne
    · simp
  unfold tokHere
  rw [hempty]
  simp only [Bool.false_eq_true, if_false, Bool.and_eq_true, bne_iff_ne, ne_eq]
  constructor
  · rintro ⟨⟨hsw, hb1⟩, hb2⟩
    rcases (startsWithCI_iff old (r ++ t)).mp hsw with ⟨hlen, htake⟩
    rcases Nat.lt_trichotomy old.length r.length with hlt | heq2 | hgt
    · exfalso
      apply hb2
      have htk : (r ++ t).take old.length = r.take old.length := by
        rw [List.take_append_eq_append_take, Nat.sub_eq_zero_of_le (Nat.le_of_lt hlt),
          List.take_zero, List.append_nil]
      have hdr : (r ++ t).drop old.length = r.drop old.length ++ t := by
        rw [List.drop_append_eq_append_drop, Nat.sub_eq_zero_of_le (Nat.le_of_lt hlt),
          List.drop_zero]
      have htkne : r.take old.length ≠ [] := by
        intro hx
        have := congrArg List.length hx
        simp only [List.length_take, List.length_nil] at this
        omega
      have hdrne : r.drop old.length ≠ [] := by
        intro hx
        have := congrArg List.length hx
        simp only [List.length_drop, List.length_nil] at this
        omega
      have h1 : wordB ((r ++ t).take old.length).getLast? = true := by
        rw [htk]
        exact wordB_getLast_of_all htkne
          (fun c hc => hrw c (List.take_subset _ _ hc))
      have h2 : wordB ((r ++ t).drop old.length).head? = true := by
        rw [hdr]
        cases hx : r.drop old.length with
        | nil => exact absurd hx hdrne
        | cons a as =>
          show wordB (some a) = true
          refine hrw a ?_
          have : a ∈ r.drop old.length := by rw [hx]; simp
          exact List.drop_subset _ _ this
      rw [h1, h2]
    · rw [heq2, List.take_left] at htake
      exact htake
    · exfalso
      rcases ht with rfl | hnw
      · simp only [List.append_nil] at hlen
        omega
      · cases t with
        | nil =>
          simp only [List.append_nil] at hlen
          omega
        | cons d t'' =>
          have hd : isWordChar d = false := hnw
          have htke : (r ++ d :: t'').take old.length =
              r ++ (d :: t'').take (old.length - r.length) := by
            rw [List.take_append_eq_append_take,
              List.take_of_length_le (Nat.le_of_lt hgt)]
          rw [htke] at htake
          have hk : 1 ≤ old.length - r.length := by omega
          have htkc : (d :: t'').take (old.length - r.length) =
              d :: t''.take (old.length - r.length - 1) := by
            cases hkk : old.length - r.length with
            | zero => omega
            | succ k => simp
          rw [htkc, lowerL_append] at htake
          have hdrop := congrArg (List.drop r.length) htake
          rw [List.drop_left' (lowerL_length r)] at hdrop
          have hold_drop : old.drop r.length ≠ [] := by
            intro hx
            rw [List.drop_eq_nil_iff] at hx
            omega
          cases hod : old.drop r.length with
          | nil => exact absurd hod hold_drop
          | cons e es =>
            have he : isWordChar e = true := by
              refine List.all_eq_true.mp hw e ?_
              have : e ∈ old.drop r.length := by rw [hod]; simp
              exact List.drop_subset _ _ this
            have : lowerL (d :: t''.take (old.length - r.length - 1)) =
                lowerL (e :: es) := by
              rw [hdrop]
              show List.drop r.length (lowerL old) = _
              unfold lowerL
              rw [← List.map_drop, hod]
            simp only [lowerL, List.map_cons, List.cons.injEq] at this
            have := eqCI_wordClass this.1
            rw [hd, he] at this
            cases this
  · intro hleq
    have hlen : r.length = old.length := by
      rw [← lowerL_length r, ← lowerL_length old, hleq]
    have htk : (r ++ t).take old.length = r := List.take_left' hlen
    have hdr : (r ++ t).drop old.length = t := List.drop_left' hlen
    refine ⟨⟨?_, ?_⟩, ?_⟩
    · rw [startsWithCI_iff]
      refine ⟨by rw [List.length_append]; omega, by rw [htk]; exact hleq⟩
    · have : wordB (r ++ t).head? = true := by
        cases r with
        | nil => exact absurd rfl hrne
        | cons a as => exact hrw a (by simp)
      rw [hprev, this]
      simp
    · rw [htk, hdr, wordB_getLast_of_all hrne hrw]
      rcases ht with rfl | hnw
      · simp [wordB]
      · rw [hnw]
        simp

/-!
## The substitution scanner at run level
-/

theorem subGo_fuel_irrel (old new : List Char) :
    ∀ (n : Nat) (s : List Char), s.length ≤ n →
    ∀ (f1 f2 : Nat) (prev : Option Char), s.length ≤ f1 → s.length ≤ f2 →
    subGo old new f1 prev s = subGo old new f2 prev s := by
  intro n
  induction n with
  | zero =>
    intro s hs f1 f2 prev _ _
    have : s = [] := List.length_eq_zero.mp (Nat.le_zero.mp hs)
    subst this
    cases f1 <;> cases f2 <;> rfl
  | succ n ih =>
    intro s hs f1 f2 prev h1 h2
    cases s with
    | nil => cases f1 <;> cases f2 <;> rfl
    | cons c rest =>
      simp only [List.length_cons] at hs h1 h2
      cases f1 with
      | zero => omega
      | succ g1 =>
        cases f2 with
        | zero => omega
        | succ g2 =>
          by_cases htok : tokHere old prev (c :: rest) = true
          · by_cases hemp : old.isEmpty = true
            · simp only [subGo, htok, hemp, if_true]
              rw [ih rest (by omega) g1 g2 (some c) (by omega) (by omega)]
            · have holen : 1 ≤ old.length := by
                cases old
                · simp at hemp
                · simp
              simp only [subGo, htok, hemp, if_true, Bool.false_eq_true, if_false]
              have hlen : ((c :: rest).drop old.length).length ≤ rest.length := by
                rw [List.length_drop]
                simp only [List.length_cons]
                omega
              rw [ih ((c :: rest).drop old.length) (by omega) g1 g2 _ (by omega) (by omega)]
          · simp only [subGo, htok, Bool.false_eq_true, if_false]
            rw [ih rest (by omega) g1 g2 (some c) (by omega) (by omega)]

theorem subGo_nonword_run (old new : List Char) (hw : old.all isWordChar = true)
    (hne : old ≠ []) :
    ∀ (r t : List Char) (prev : Option Char) (f : Nat),
    (∀ c ∈ r, isWordChar c = false) → (r ++ t).length ≤ f →
    subGo old new f prev (r ++ t) =
      r ++ subGo old new t.length (if r = [] then prev else r.getLast?) t := by
  intro r
  induction r with
  | nil =>
    intro t prev f _ hf
    simp only [List.nil_append] at hf ⊢
    rw [if_pos trivial]
    exact subGo_fuel_irrel old new f t hf f t.length prev hf (le_refl _)
  | cons c r' ih =>
    intro t prev f hall hf
    simp only [List.cons_append, List.length_cons] at hf ⊢
    cases f with
    | zero => omega
    | succ g =>
      have htok : tokHere old prev (c :: (r' ++ t)) = false := by
        refine tokHere_false_of_nonword_head old hne hw prev _ (Or.inr ?_)
        exact hall c (by simp)
      simp only [subGo, htok, Bool.false_eq_true, if_false]
      have hrec := ih t (some c) g
        (fun x hx => hall x (List.mem_cons_of_mem _ hx))
        (by simp only [List.length_append] at hf ⊢; omega)
      rw [hrec]
      cases r' with
      | nil => simp
      | cons y r'' =>
        rw [if_neg (show ¬(y :: r'' = []) by simp),
          if_neg (show ¬(c :: y :: r'' = []) by simp), List.getLast?_cons_cons]

theorem subGo_word_run_inside (old new : List Char) :
    ∀ (r t : List Char) (prev : Option Char) (f : Nat),
    (∀ c ∈ r, isWordChar c = true) → wordB prev = true → (r ++ t).length ≤ f →
    subGo old new f prev (r ++ t) =
      r ++ subGo old new t.length (if r = [] then prev else r.getLast?) t := by
  intro r
  induction r with
  | nil =>
    intro t prev f _ _ hf
    simp only [List.nil_append] at hf ⊢
    rw [if_pos trivial]
    exact subGo_fuel_irrel old new f t hf f t.length prev hf (le_refl _)
  | cons c r' ih =>
    intro t prev f hall hprev hf
    simp only [List.cons_append, List.length_cons] at hf ⊢
    cases f with
    | zero => omega
    | succ g =>
      have htok : tokHere old prev (c :: (r' ++ t)) = false := by
        refine tokHere_false_of_word_word old prev _ hprev ?_
        exact hall c (by simp)
      simp only [subGo, htok, Bool.false_eq_true, if_false]
      have hrec := ih t (some c) g
        (fun x hx => hall x (List.mem_cons_of_mem _ hx))
        (hall c (by simp))
        (by simp only [List.length_append] at hf ⊢; omega)
      rw [hrec]
      cases r' with
      | nil => simp
      | cons y r'' =>
        rw [if_neg (show ¬(y :: r'' = []) by simp),
          if_neg (show ¬(c :: y :: r'' = []) by simp), List.getLast?_cons_cons]

theorem subGo_word_run_nomatch (old new : List Char) (hw : old.all isWordChar = true)
    (hne : old ≠ []) (r t : List Char) (hrne : r ≠ [])
    (hrw : ∀ c ∈ r, isWordChar c = true)
    (ht : t = [] ∨ wordB t.head? = false)
    (prev : Option Char) (hprev : wordB prev = false)
    (hdiff : lowerL r ≠ lowerL old) (f : Nat) (hf : (r ++ t).length ≤ f) :
    subGo old new f prev (r ++ t) = r ++ subGo old new t.length r.getLast? t := by
  cases r with
  | nil => exact absurd rfl hrne
  | cons c r' =>
    have htok : tokHere old prev ((c :: r') ++ t) = false := by
      cases h : tokHere old prev ((c :: r') ++ t)
      · rfl
      · exact absurd ((tokHere_word_run old hw hne (c :: r') t hrne hrw ht prev hprev).mp h)
          hdiff
    simp only [List.cons_append, List.length_cons] at hf ⊢
    cases f with
    | zero => omega
    | succ g =>
      rw [show ((c :: r') ++ t = c :: (r' ++ t)) from rfl] at htok
      simp only [subGo, htok, Bool.false_eq_true, if_false]
      have hrec := subGo_word_run_inside old new r' t (some c) g
        (fun x hx => hrw x (List.mem_cons_of_mem _ hx))
        (hrw c (by simp))
        (by simp only [List.length_append] at hf ⊢; omega)
      rw [hrec]
      cases r' with
      | nil => simp
      | cons y r'' =>
        rw [if_neg (show ¬(y :: r'' = []) by simp), List.getLast?_cons_cons]

theorem subGo_word_run_match (old new : List Char) (hw : old.all isWordChar = true)
    (hne : old ≠ []) (r t : List Char) (hrne : r ≠ [])
    (hrw : ∀ c ∈ r, isWordChar c = true)
    (ht : t = [] ∨ wordB t.head? = false)
    (prev : Option Char) (hprev : wordB prev = false)
    (heqr : lowerL r = lowerL old) (f : Nat) (hf : (r ++ t).length ≤ f) :
    subGo old new f prev (r ++ t) = new ++ subGo old new t.length r.getLast? t := by
  have hempty : old.isEmpty = false := by
    cases old
    · exact absurd rfl hne
    · rfl
  have hlen : r.length = old.length := by
    rw [← lowerL_length r, ← lowerL_length old, heqr]
  have htok : tokHere old prev (r ++ t) = true :=
    (tokHere_word_run old hw hne r t hrne hrw ht prev hprev).mpr heqr
  cases r with
  | nil => exact absurd rfl hrne
  | cons c r' =>
    simp only [List.cons_append, List.length_cons] at hf
    cases f with
    | zero => omega
    | succ g =>
      rw [show ((c :: r') ++ t = c :: (r' ++ t)) from rfl] at htok ⊢
      simp only [subGo, htok, hempty, if_true, Bool.false_eq_true, if_false]
      have htk : (c :: (r' ++ t)).take old.length = c :: r' := by
        rw [show (c :: (r' ++ t)) = (c :: r') ++ t from rfl]
        exact List.take_left' hlen
      have hdr : (c :: (r' ++ t)).drop old.length = t := by
        rw [show (c :: (r' ++ t)) = (c :: r') ++ t from rfl]
        exact List.drop_left' hlen
      rw [htk, hdr]
      congr 1
      refine subGo_fuel_irrel old new g t ?_ g t.length _ ?_ (le_refl _)
      · simp only [List.length_append] at hf; omega
      · simp only [List.length_append] at hf; omega

theorem runAlt_destruct {w : Bool} {r : List Char} {rs : List (List Char)}
    (h : runAlt w (r :: rs) = true) :
    r ≠ [] ∧ (∀ c ∈ r, isWordChar c = w) ∧ runAlt (!w) rs = true := by
  unfold runAlt at h
  rw [Bool.and_eq_true, Bool.and_eq_true] at h
  obtain ⟨⟨hne, hall⟩, htail⟩ := h
  refine ⟨?_, ?_, htail⟩
  · cases r
    · simp at hne
    · simp
  · intro c hc
    exact eq_of_beq (List.all_eq_true.mp hall c hc)

theorem flatten_head_class {w : Bool} {rs : List (List Char)}
    (h : runAlt w rs = true) :
    rs.flatten = [] ∨ wordB rs.flatten.head? = w := by
  cases rs with
  | nil => exact Or.inl rfl
  | cons r rs' =>
    obtain ⟨hne, hall, _⟩ := runAlt_destruct h
    cases r with
    | nil => exact absurd rfl hne
    | cons c r' =>
      right
      show wordB (some c) = w
      exact hall c (by simp)

theorem lowerL_ne_classes {r old : List Char} (hrne : r ≠ [])
    (hrw : ∀ c ∈ r, isWordChar c = false) (hone : old ≠ [])
    (how : old.all isWordChar = true) : lowerL r ≠ lowerL old := by
  intro h
  have hmap := wordClass_map_of_lowerL h
  cases r with
  | nil => exact absurd rfl hrne
  | cons c r' =>
    cases old with
    | nil => exact absurd rfl hone
    | cons o os =>
      simp only [List.map_cons, List.cons.injEq] at hmap
      have hc : isWordChar c = false := hrw c (by simp)
      have ho : isWordChar o = true := List.all_eq_true.mp how o (by simp)
      rw [hc, ho] at hmap
      cases hmap.1

/-- Master lemma: on text in run normal form, `re.sub(rf'\b{old}\b', new, ·)`
with a word-only `old` acts run-wise — runs case-insensitively equal to `old`
become `new`, all others survive verbatim. -/
theorem subGo_flatten (old new : List Char) (hw : old.all isWordChar = true)
    (hne : old ≠ []) :
    ∀ (rs : List (List Char)) (w : Bool) (prev : Option Char),
    runAlt w rs = true → (w = true → wordB prev = false) →
    subGo old new (rs.flatten).length prev rs.flatten =
      (rs.map (replRun old new)).flatten := by
  intro rs
  induction rs with
  | nil => intro w prev _ _; rfl
  | cons r rs' ih =>
    intro w prev h hprev
    obtain ⟨hrne, hall, htail⟩ := runAlt_destruct h
    show subGo old new ((r ++ rs'.flatten).length) prev (r ++ rs'.flatten) = _
    cases w with
    | false =>
      rw [subGo_nonword_run old new hw hne r rs'.flatten prev _ hall (le_refl _)]
      rw [if_neg hrne]
      have hprev' : wordB r.getLast? = false := wordB_getLast_of_all hrne hall
      rw [ih true r.getLast? htail (fun _ => hprev')]
      have hrepl : replRun old new r = r := by
        unfold replRun
        rw [if_neg]
        intro hx
        exact lowerL_ne_classes hrne hall hne hw (eq_of_beq hx)
      show _ = (replRun old new r) ++ _
      rw [hrepl]
    | true =>
      have hp : wordB prev = false := hprev rfl
      have ht : rs'.flatten = [] ∨ wordB rs'.flatten.head? = false :=
        flatten_head_class htail
      by_cases heqr : lowerL r = lowerL old
      · rw [subGo_word_run_match old new hw hne r rs'.flatten hrne hall ht prev hp heqr
          _ (le_refl _)]
        have hpl : wordB r.getLast? = true := wordB_getLast_of_all hrne hall
        rw [ih false r.getLast? htail (fun hx => by cases hx)]
        have hrepl : replRun old new r = new := by
          unfold replRun
          rw [if_pos (by simpa using heqr)]
        show _ = (replRun old new r) ++ _
        rw [hrepl]
      · rw [subGo_word_run_nomatch old new hw hne r rs'.flatten hrne hall ht prev hp heqr
          _ (le_refl _)]
        have hpl : wordB r.getLast? = true := wordB_getLast_of_all hrne hall
        rw [ih false r.getLast? htail (fun hx => by cases hx)]
        have hrepl : replRun old new r = r := by
          unfold replRun
          rw [if_neg (by simpa using heqr)]
        show _ = (replRun old new r) ++ _
        rw [hrepl]

/-!
## The search scanner at run level
-/

theorem hasTok_empty_false (old : List Char) (hne : old ≠ []) (prev : Option Char) :
    hasTokFrom old prev [] = false := by
  cases old with
  | nil => exact absurd rfl hne
  | cons o os => simp [hasTokFrom, tokHere, startsWithCI]

theorem hasTok_nonword_run (old : List Char) (hw : old.all isWordChar = true)
    (hne : old ≠ []) :
    ∀ (r t : List Char) (prev : Option Char), (∀ c ∈ r, isWordChar c = false) →
    hasTokFrom old prev (r ++ t) =
      hasTokFrom old (if r = [] then prev else r.getLast?) t := by
  intro r
  induction r with
  | nil =>
    intro t prev _
    rw [if_pos rfl]
    rfl
  | cons c r' ih =>
    intro t prev hall
    have htok : tokHere old prev (c :: (r' ++ t)) = false :=
      tokHere_false_of_nonword_head old hne hw prev _ (Or.inr (hall c (by simp)))
    show (tokHere old prev (c :: (r' ++ t)) || hasTokFrom old (some c) (r' ++ t)) = _
    rw [htok, Bool.false_or, ih t (some c)
      (fun x hx => hall x (List.mem_cons_of_mem _ hx))]
    cases r' with
    | nil => simp
    | cons y r'' =>
      rw [if_neg (show ¬(y :: r'' = []) by simp),
        if_neg (show ¬(c :: y :: r'' = []) by simp), List.getLast?_cons_cons]

theorem hasTok_word_run_inside (old : List Char) :
    ∀ (r t : List Char) (prev : Option Char), (∀ c ∈ r, isWordChar c = true) →
    wordB prev = true →
    hasTokFrom old prev (r ++ t) =
      hasTokFrom old (if r = [] then prev else r.getLast?) t := by
  intro r
  induction r with
  | nil =>
    intro t prev _ _
    rw [if_pos rfl]
    rfl
  | cons c r' ih =>
    intro t prev hall hprev
    have htok : tokHere old prev (c :: (r' ++ t)) = false :=
      tokHere_false_of_word_word old prev _ hprev (hall c (by simp))
    show (tokHere old prev (c :: (r' ++ t)) || hasTokFrom old (some c) (r' ++ t)) = _
    rw [htok, Bool.false_or, ih t (some c)
      (fun x hx => hall x (List.mem_cons_of_mem _ hx)) (hall c (by simp))]
    cases r' with
    | nil => simp
    | cons y r'' =>
      rw [if_neg (show ¬(y :: r'' = []) by simp),
        if_neg (show ¬(c :: y :: r'' = []) by simp), List.getLast?_cons_cons]

theorem hasTok_word_run_nomatch (old : List Char) (hw : old.all isWordChar = true)
    (hne : old ≠ []) (r t : List Char) (hrne : r ≠ [])
    (hrw : ∀ c ∈ r, isWordChar c = true)
    (ht : t = [] ∨ wordB t.head? = false)
    (prev : Option Char) (hprev : wordB prev = false)
    (hdiff : lowerL r ≠ lowerL old) :
    hasTokFrom old prev (r ++ t) = hasTokFrom old r.getLast? t := by
  cases r with
  | nil => exact absurd rfl hrne
  | cons c r' =>
    have htok : tokHere old prev ((c :: r') ++ t) = false := by
      cases h : tokHere old prev ((c :: r') ++ t)
      · rfl
      · exact absurd ((tokHere_word_run old hw hne (c :: r') t hrne hrw ht prev hprev).mp h)
          hdiff
    show (tokHere old prev (c :: (r' ++ t)) || hasTokFrom old (some c) (r' ++ t)) = _
    rw [show (c :: (r' ++ t)) = (c :: r') ++ t from rfl, htok, Bool.false_or]
    rw [hasTok_word_run_inside old r' t (some c)
      (fun x hx => hrw x (List.mem_cons_of_mem _ hx)) (hrw c (by simp))]
    cases r' with
    | nil => simp
    | cons y r'' =>
      rw [if_neg (show ¬(y :: r'' = []) by simp), List.getLast?_cons_cons]

/-- Master lemma for the search scanner: a `\b<old>\b` match somewhere in run
normal form exhibits a whole run case-insensitively equal to `old`. -/
theorem hasTok_flatten (old : List Char) (hw : old.all isWordChar = true)
    (hne : old ≠ []) :
    ∀ (rs : List (List Char)) (w : Bool) (prev : Option Char),
    runAlt w rs = true → (w = true → wordB prev = false) →
    hasTokFrom old prev rs.flatten = true → ∃ r ∈ rs, lowerL r = lowerL old := by
  intro rs
  induction rs with
  | nil =>
    intro w prev _ _ h
    rw [show (([] : List (List Char)).flatten = []) from rfl,
      hasTok_empty_false old hne prev] at h
    cases h
  | cons r rs' ih =>
    intro w prev h hprev hfound
    obtain ⟨hrne, hall, htail⟩ := runAlt_destruct h
    rw [show ((r :: rs').flatten = r ++ rs'.flatten) from rfl] at hfound
    cases w with
    | false =>
      rw [hasTok_nonword_run old hw hne r rs'.flatten prev hall, if_neg hrne] at hfound
      have hprev' : wordB r.getLast? = false := wordB_getLast_of_all hrne hall
      rcases ih true r.getLast? htail (fun _ => hprev') hfound with ⟨x, hx, hxeq⟩
      exact ⟨x, List.mem_cons_of_mem _ hx, hxeq⟩
    | true =>
      have hp : wordB prev = false := hprev rfl
      have ht : rs'.flatten = [] ∨ wordB rs'.flatten.head? = false :=
        flatten_head_class htail
      by_cases heqr : lowerL r = lowerL old
      · exact ⟨r, by simp, heqr⟩
      · rw [hasTok_word_run_nomatch old hw hne r rs'.flatten hrne hall ht prev hp heqr]
          at hfound
        rcases ih false r.getLast? htail (fun hx => by cases hx) hfound with ⟨x, hx, hxeq⟩
        exact ⟨x, List.mem_cons_of_mem _ hx, hxeq⟩

/-!
## No match anywhere means the substitutions are the identity
-/

theorem subGo_id_of_no_match (old new : List Char) :
    ∀ (f : Nat) (prev : Option Char) (s : List Char),
    hasTokFrom old prev s = false → subGo old new f prev s = s := by
  intro f
  induction f with
  | zero => intro prev s _; rfl
  | succ g ih =>
    intro prev s h
    cases s with
    | nil => rfl
    | cons c rest =>
      rw [show hasTokFrom old prev (c :: rest) =
        (tokHere old prev (c :: rest) || hasTokFrom old (some c) rest) from rfl,
        Bool.or_eq_false_iff] at h
      simp only [subGo, h.1, Bool.false_eq_true, if_false]
      rw [ih (some c) rest h.2]

theorem aliasSubGo_id_of_no_match (old new : List Char) :
    ∀ (f : Nat) (prev : Option Char) (s : List Char),
    aliasHasFrom old prev s = false → aliasSubGo old new f prev s = s := by
  intro f
  induction f with
  | zero => intro prev s _; rfl
  | succ g ih =>
    intro prev s h
    cases s with
    | nil => rfl
    | cons c rest =>
      rw [show aliasHasFrom old prev (c :: rest) =
        ((aliasHere old prev (c :: rest)).isSome || aliasHasFrom old (some c) rest)
        from rfl, Bool.or_eq_false_iff] at h
      have hnone : aliasHere old prev (c :: rest) = none :=
        Option.not_isSome_iff_eq_none.mp (by rw [h.1]; simp)
      simp only [aliasSubGo, hnone]
      rw [ih (some c) rest h.2]

theorem aliasHere_none_of_no_dot (old : List Char) (prev : Option Char)
    (s : List Char) (h : '.' ∉ s) : aliasHere old prev s = none := by
  unfold aliasHere
  cases s with
  | nil => rfl
  | cons c rest =>
    simp only [List.head?_cons]
    by_cases hg : (!wordB prev && (c.isAlpha || c == '_')) = true
    · rw [if_pos hg]
      cases hh : ((c :: rest).drop ((c :: rest).takeWhile isWordChar).length).head? with
      | none => rfl
      | some d =>
        have hd : d ∈ (c :: rest) :=
          List.drop_subset ((List.takeWhile isWordChar (c :: rest)).length) (c :: rest)
            (List.mem_of_mem_head? (Option.mem_def.mpr hh))
        have hne : ¬(d = '.') := fun hx => h (hx ▸ hd)
        simp [hne]
    · rw [if_neg hg]

theorem aliasHasFrom_false_of_no_dot (old : List Char) :
    ∀ (s : List Char) (prev : Option Char), '.' ∉ s →
    aliasHasFrom old prev s = false := by
  intro s
  induction s with
  | nil => intro prev _; rfl
  | cons c rest ih =>
    intro prev h
    show ((aliasHere old prev (c :: rest)).isSome || _) = false
    rw [aliasHere_none_of_no_dot old prev (c :: rest) h]
    simp only [Option.isSome_none, Bool.false_or]
    exact ih (some c) (fun hx => h (List.mem_cons_of_mem _ hx))

theorem subGo_chars (old new : List Char) :
    ∀ (f : Nat) (prev : Option Char) (s : List Char) (c : Char),
    c ∈ subGo old new f prev s → c ∈ s ∨ c ∈ new := by
  intro f
  induction f with
  | zero => intro prev s c h; exact Or.inl h
  | succ g ih =>
    intro prev s c h
    cases s with
    | nil => cases h
    | cons a rest =>
      by_cases htok : tokHere old prev (a :: rest) = true
      · by_cases hemp : old.isEmpty = true
        · simp only [subGo, htok, hemp, if_true] at h
          rcases List.mem_append.mp h with hn | hr
          · exact Or.inr hn
          · rcases List.mem_cons.mp hr with rfl | hr2
            · exact Or.inl (by simp)
            · rcases ih (some a) rest c hr2 with hx | hx
              · exact Or.inl (List.mem_cons_of_mem _ hx)
              · exact Or.inr hx
        · simp only [subGo, htok, hemp, if_true, Bool.false_eq_true, if_false] at h
          rcases List.mem_append.mp h with hn | hr
          · exact Or.inr hn
          · rcases ih _ _ c hr with hx | hx
            · exact Or.inl (List.drop_subset _ _ hx)
            · exact Or.inr hx
      · simp only [subGo, htok, Bool.false_eq_true, if_false] at h
        rcases List.mem_cons.mp h with rfl | hr
        · exact Or.inl (by simp)
        · rcases ih (some a) rest c hr with hx | hx
          · exact Or.inl (List.mem_cons_of_mem _ hx)
          · exact Or.inr hx

/-!
## From the FROM-clause probe to a table token
-/

theorem hasTok_cons_lift (pat : List Char) (c : Char) (rest : List Char)
    (prev : Option Char) (h : hasTokFrom pat (some c) rest = true) :
    hasTokFrom pat prev (c :: rest) = true := by
  show (tokHere pat prev (c :: rest) || hasTokFrom pat (some c) rest) = true
  rw [h]
  simp

theorem tokInLine_imp_hasTok (pat : List Char) :
    ∀ (s : List Char) (prev : Option Char), tokInLine pat prev s = true →
    hasTokFrom pat prev s = true := by
  intro s
  induction s with
  | nil => intro prev h; exact h
  | cons c rest ih =>
    intro prev h
    rw [show tokInLine pat prev (c :: rest) = (tokHere pat prev (c :: rest) ||
      (if c == '\n' then false else tokInLine pat (some c) rest)) from rfl,
      Bool.or_eq_true] at h
    rcases h with h | h
    · show (tokHere pat prev (c :: rest) || _) = true
      rw [h]
      simp
    · by_cases hc : (c == '\n') = true
      · rw [if_pos hc] at h
        cases h
      · rw [if_neg hc] at h
        exact hasTok_cons_lift pat c rest prev (ih (some c) h)

theorem hasTok_take_drop_lift (pat : List Char) :
    ∀ (k : Nat) (s : List Char) (prev : Option Char) (x : Char),
    (s.take k).getLast? = some x → hasTokFrom pat (some x) (s.drop k) = true →
    hasTokFrom pat prev s = true := by
  intro k
  induction k with
  | zero =>
    intro s prev x hx _
    simp at hx
  | succ j ih =>
    intro s prev x hx hin
    cases s with
    | nil => simp at hx
    | cons c rest =>
      rw [List.take_succ_cons] at hx
      rw [List.drop_succ_cons] at hin
      cases hjr : (rest.take j).getLast? with
      | some y =>
        have hxy : (c :: rest.take j).getLast? = some y := by
          cases hq : rest.take j with
          | nil => simp [hq] at hjr
          | cons a as =>
            rw [hq] at hjr
            rw [List.getLast?_cons_cons]
            exact hjr
        rw [hxy] at hx
        have hx2 : y = x := by injection hx
        subst hx2
        exact hasTok_cons_lift pat c rest prev (ih rest (some c) y hjr hin)
      | none =>
        have hq : rest.take j = [] := by
          cases hq : rest.take j with
          | nil => rfl
          | cons a as =>
            rw [hq] at hjr
            rw [List.getLast?_eq_getLast _ (by simp)] at hjr
            cases hjr
        rw [hq] at hx
        have hx2 : c = x := by
          rw [show ([c] : List Char).getLast? = some c from rfl] at hx
          injection hx
        subst hx2
        rcases List.take_eq_nil_iff.mp hq with hj | hr
        · subst hj
          rw [List.drop_zero] at hin
          exact hasTok_cons_lift pat c rest prev hin
        · subst hr
          rw [List.drop_nil] at hin
          exact hasTok_cons_lift pat c [] prev hin

/-- A successful FROM-clause probe exhibits a boundary-delimited table token
somewhere in the text. -/
theorem fromCheckGo_imp_hasTok (tbl : List Char) :
    ∀ (s : List Char) (prev : Option Char), fromCheckGo tbl prev s = true →
    hasTokFrom tbl prev s = true := by
  intro s
  induction s with
  | nil => intro prev h; cases h
  | cons c rest ih =>
    intro prev h
    rw [show fromCheckGo tbl prev (c :: rest) =
      ((tokHere fromWord prev (c :: rest) &&
        tokInLine tbl (((c :: rest).take 4).getLast?) ((c :: rest).drop 4)) ||
        fromCheckGo tbl (some c) rest) from rfl, Bool.or_eq_true] at h
    rcases h with h | h
    · rw [Bool.and_eq_true] at h
      cases hx : ((c :: rest).take 4).getLast? with
      | none =>
        rw [List.take_succ_cons] at hx
        cases hq : rest.take 3 with
        | nil => rw [hq] at hx; simp at hx
        | cons a as =>
          rw [hq] at hx
          rw [List.getLast?_eq_getLast _ (by simp)] at hx
          cases hx
      | some x =>
        refine hasTok_take_drop_lift tbl 4 (c :: rest) prev x hx ?_
        have := tokInLine_imp_hasTok tbl ((c :: rest).drop 4) (((c :: rest).take 4).getLast?) h.2
        rw [hx] at this
        exact this
    · exact hasTok_cons_lift tbl c rest prev (ih (some c) h)

/-!
## The table pass in run normal form
-/

theorem lookupRev_mem (tm : List (String × String)) (v o : String)
    (h : lookupRev tm v = some o) : ∃ p ∈ tm, p.1 = o ∧ p.2 = v := by
  unfold lookupRev at h
  cases hg : (tm.filter (fun p => p.2 == v)).getLast? with
  | none => rw [hg] at h; cases h
  | some p =>
    rw [hg] at h
    have hp : p ∈ tm.filter (fun p => p.2 == v) := by
      have hne : tm.filter (fun p => p.2 == v) ≠ [] := by
        intro hx
        rw [hx] at hg
        cases hg
      rw [List.getLast?_eq_getLast _ hne] at hg
      have := List.getLast_mem hne
      injection hg with hg2
      rw [hg2] at this
      exact this
    have hmem : p ∈ tm := (List.mem_filter.mp hp).1
    have hval : (p.2 == v) = true := (List.mem_filter.mp hp).2
    have ho : p.1 = o := by injection h
    exact ⟨p, hmem, ho, eq_of_beq hval⟩

/-- String-level master lemma for one boundary replacement. -/
theorem reSubTok_runs (old new s : String) (hne : old.data ≠ [])
    (hw : old.data.all isWordChar = true) :
    (reSubTok old new s).data =
      ((runs s.data).map (replRun old.data new.data)).flatten := by
  show subGo old.data new.data s.data.length none s.data = _
  cases hs : s.data with
  | nil => rfl
  | cons c rest =>
    have halt := runAlt_runs rest c
    have hflat : (runs (c :: rest)).flatten = c :: rest := runs_flatten _
    have := subGo_flatten old.data new.data hw hne (runs (c :: rest))
      (isWordChar c) none halt (fun _ => rfl)
    rw [hflat] at this
    rw [show (c :: rest).length = (c :: rest).length from rfl]
    exact this

theorem runAlt_map_replRun (old new : List Char) (hone : old ≠ [])
    (how : old.all isWordChar = true) (hnne : new ≠ [])
    (hnw : new.all isWordChar = true) :
    ∀ (rs : List (List Char)) (w : Bool), runAlt w rs = true →
    runAlt w (rs.map (replRun old new)) = true := by
  intro rs
  induction rs with
  | nil => intro w _; rfl
  | cons r rs' ih =>
    intro w h
    obtain ⟨hrne, hall, htail⟩ := runAlt_destruct h
    rw [List.map_cons]
    show (!(replRun old new r).isEmpty &&
      (replRun old new r).all (fun c => isWordChar c == w) &&
      runAlt (!w) (rs'.map (replRun old new))) = true
    rw [Bool.and_eq_true, Bool.and_eq_true]
    refine ⟨⟨?_, ?_⟩, ih (!w) htail⟩
    · unfold replRun
      by_cases hx : (lowerL r == lowerL old) = true
      · rw [if_pos hx]
        cases new
        · exact absurd rfl hnne
        · simp
      · rw [if_neg hx]
        cases r
        · exact absurd rfl hrne
        · simp
    · unfold replRun
      by_cases hx : (lowerL r == lowerL old) = true
      · rw [if_pos hx]
        have hmap := wordClass_map_of_lowerL (eq_of_beq hx)
        have hwtrue : w = true := by
          cases r with
          | nil => exact absurd rfl hrne
          | cons a r' =>
            cases old with
            | nil => exact absurd rfl hone
            | cons o os =>
              simp only [List.map_cons, List.cons.injEq] at hmap
              have ha : isWordChar a = w := hall a (by simp)
              have ho : isWordChar o = true := List.all_eq_true.mp how o (by simp)
              rw [ha, ho] at hmap
              exact hmap.1
        subst hwtrue
        apply List.all_eq_true.mpr
        intro x hx2
        exact beq_iff_eq.mpr (List.all_eq_true.mp hnw x hx2)
      · rw [if_neg hx]
        apply List.all_eq_true.mpr
        intro x hx2
        exact beq_iff_eq.mpr (hall x hx2)

theorem tableRunPass_alt (tm : List (String × String))
    (hnames : ∀ p ∈ tm, p.1.data ≠ [] ∧ p.1.data.all isWordChar = true ∧
      p.2.data ≠ [] ∧ p.2.data.all isWordChar = true) :
    ∀ (rs : List (List Char)) (w : Bool), runAlt w rs = true →
    runAlt w (tableRunPass tm rs) = true := by
  induction tm with
  | nil => intro rs w h; exact h
  | cons p tm' ih =>
    intro rs w h
    obtain ⟨h1, h2, h3, h4⟩ := hnames p (by simp)
    show runAlt w (tableRunPass tm' (rs.map (replRun p.1.data p.2.data))) = true
    exact ih (fun q hq => hnames q (List.mem_cons_of_mem _ hq)) _ w
      (runAlt_map_replRun p.1.data p.2.data h1 h2 h3 h4 rs w h)

theorem runAlt_of_runs (s : List Char) : ∃ w, runAlt w (runs s) = true := by
  cases s with
  | nil => exact ⟨true, rfl⟩
  | cons c rest => exact ⟨isWordChar c, runAlt_runs rest c⟩

theorem applyTableMappings_data (tm : List (String × String)) :
    (∀ p ∈ tm, p.1.data ≠ [] ∧ p.1.data.all isWordChar = true ∧
      p.2.data ≠ [] ∧ p.2.data.all isWordChar = true) →
    ∀ (s : String),
    (applyTableMappings tm s).data = (tableRunPass tm (runs s.data)).flatten ∧
    runs (applyTableMappings tm s).data = tableRunPass tm (runs s.data) := by
  induction tm with
  | nil =>
    intro _ s
    exact ⟨(runs_flatten s.data).symm, rfl⟩
  | cons p tm' ih =>
    intro hnames s
    obtain ⟨h1, h2, h3, h4⟩ := hnames p (by simp)
    have hstep : (reSubTok p.1 p.2 s).data =
        ((runs s.data).map (replRun p.1.data p.2.data)).flatten :=
      reSubTok_runs p.1 p.2 s h1 h2
    rcases runAlt_of_runs s.data with ⟨w, hw⟩
    have halt : runAlt w ((runs s.data).map (replRun p.1.data p.2.data)) = true :=
      runAlt_map_replRun p.1.data p.2.data h1 h2 h3 h4 _ w hw
    have hruns : runs (reSubTok p.1 p.2 s).data =
        (runs s.data).map (replRun p.1.data p.2.data) := by
      rw [hstep]
      exact runs_of_alt _ w halt
    have happ : applyTableMappings (p :: tm') s = applyTableMappings tm' (reSubTok p.1 p.2 s) := rfl
    rw [happ]
    rcases ih (fun q hq => hnames q (List.mem_cons_of_mem _ hq)) (reSubTok p.1 p.2 s)
      with ⟨ha, hb⟩
    rw [hruns] at ha hb
    exact ⟨ha, hb⟩

theorem tableRunPass_mem (tm : List (String × String)) :
    ∀ (rs : List (List Char)) (r : List Char), r ∈ tableRunPass tm rs →
    r ∈ rs ∨ ∃ p ∈ tm, r = p.2.data := by
  induction tm with
  | nil => intro rs r h; exact Or.inl h
  | cons p tm' ih =>
    intro rs r h
    rcases ih _ r h with hx | ⟨q, hq, hr⟩
    · rcases List.mem_map.mp hx with ⟨r0, hr0, hrepl⟩
      unfold replRun at hrepl
      by_cases hb : (lowerL r0 == lowerL p.1.data) = true
      · rw [if_pos hb] at hrepl
        exact Or.inr ⟨p, by simp, hrepl.symm⟩
      · rw [if_neg hb] at hrepl
        exact Or.inl (hrepl ▸ hr0)
    · exact Or.inr ⟨q, List.mem_cons_of_mem _ hq, hr⟩

theorem tableRunPass_noTok (tm : List (String × String))
    (hdisj : ∀ p ∈ tm, ∀ q ∈ tm, lowerL p.1.data ≠ lowerL q.2.data) :
    ∀ (rs : List (List Char)) (p : String × String), p ∈ tm →
    ∀ r ∈ tableRunPass tm rs, lowerL r ≠ lowerL p.1.data := by
  induction tm with
  | nil => intro rs p hp; cases hp
  | cons q tm' ih =>
    intro rs p hp r hr heq2
    rcases List.mem_cons.mp hp with rfl | hp2
    · -- p is the head rule; its old name is gone after its own map and
      -- never reintroduced
      rcases tableRunPass_mem tm' _ r hr with hx | ⟨q2, hq2, hrq⟩
      · rcases List.mem_map.mp hx with ⟨r0, _, hrepl⟩
        unfold replRun at hrepl
        by_cases hb : (lowerL r0 == lowerL p.1.data) = true
        · rw [if_pos hb] at hrepl
          refine hdisj p (by simp) p (by simp) ?_
          rw [← hrepl] at heq2
          exact heq2.symm
        · rw [if_neg hb] at hrepl
          refine hb (beq_iff_eq.mpr ?_)
          rw [hrepl]
          exact heq2
      · refine hdisj p (by simp) q2 (List.mem_cons_of_mem _ hq2) ?_
        rw [← hrq]
        exact heq2.symm
    · exact ih (fun a ha b hb => hdisj a (List.mem_cons_of_mem _ ha) b
        (List.mem_cons_of_mem _ hb)) _ p hp2 r hr heq2

theorem applyTableMappings_chars (tm : List (String × String)) :
    ∀ (s : String) (c : Char), c ∈ (applyTableMappings tm s).data →
    c ∈ s.data ∨ ∃ p ∈ tm, c ∈ p.2.data := by
  induction tm with
  | nil => intro s c h; exact Or.inl h
  | cons p tm' ih =>
    intro s c h
    have happ : applyTableMappings (p :: tm') s =
      applyTableMappings tm' (reSubTok p.1 p.2 s) := rfl
    rw [happ] at h
    rcases ih _ c h with hx | ⟨q, hq, hc⟩
    · rcases subGo_chars p.1.data p.2.data s.data.length none s.data c hx with hy | hy
      · exact Or.inl hy
      · exact Or.inr ⟨p, by simp, hy⟩
    · exact Or.inr ⟨q, List.mem_cons_of_mem _ hq, hc⟩

/-!
## The column pass is the identity on dot-free text with no old-table tokens
-/

theorem aliasSubStr_id (old new content : String) (hdot : '.' ∉ content.data) :
    aliasSubStr old new content = content := by
  show (⟨aliasSubGo old.data new.data content.data.length none content.data⟩ : String) = _
  rw [aliasSubGo_id_of_no_match old.data new.data content.data.length none content.data
    (aliasHasFrom_false_of_no_dot old.data content.data none hdot)]

theorem applyColRule_id (oldTbl content : String) (rule : String × String)
    (hdot : '.' ∉ content.data) (hfc : fromCheckStr oldTbl content = false) :
    applyColRule oldTbl content rule = content := by
  unfold applyColRule
  rw [aliasSubStr_id rule.1 rule.2 content hdot]
  simp only [hfc, Bool.false_eq_true, if_false]

theorem foldl_colRules_id (oldTbl content : String)
    (hdot : '.' ∉ content.data) (hfc : fromCheckStr oldTbl content = false) :
    ∀ (rules : List (String × String)),
    rules.foldl (applyColRule oldTbl) content = content := by
  intro rules
  induction rules with
  | nil => rfl
  | cons rule rules ih =>
    rw [List.foldl_cons, applyColRule_id oldTbl content rule hdot hfc]
    exact ih

theorem applyColumnMappings_id (tm : List (String × String))
    (cm : List (String × List (String × String))) (content : String)
    (hdot : '.' ∉ content.data)
    (hfc : ∀ p ∈ tm, fromCheckStr p.1 content = false) :
    applyColumnMappings tm cm content = content := by
  unfold applyColumnMappings
  induction cm with
  | nil => rfl
  | cons g cm' ih =>
    rw [List.foldl_cons]
    cases hlook : lookupRev tm g.1 with
    | none =>
      simp only [hlook]
      exact ih
    | some oldTbl =>
      simp only [hlook]
      by_cases hempty : (oldTbl == "") = true
      · rw [if_pos hempty]
        exact ih
      · rw [if_neg hempty]
        rcases lookupRev_mem tm g.1 oldTbl hlook with ⟨p, hp, hp1, _⟩
        rw [foldl_colRules_id oldTbl content hdot (hp1 ▸ hfc p hp)]
        exact ih

theorem reSubTok_id (old new content : String)
    (h : hasTokFrom old.data none content.data = false) :
    reSubTok old new content = content := by
  show (⟨subGo old.data new.data content.data.length none content.data⟩ : String) = _
  rw [subGo_id_of_no_match old.data new.data content.data.length none content.data h]

theorem applyTableMappings_id (tm : List (String × String)) (content : String)
    (h : ∀ p ∈ tm, hasTokFrom p.1.data none content.data = false) :
    applyTableMappings tm content = content := by
  unfold applyTableMappings
  induction tm with
  | nil => rfl
  | cons p tm' ih =>
    rw [List.foldl_cons, reSubTok_id p.1 p.2 content (h p (by simp))]
    exact ih (fun q hq => h q (List.mem_cons_of_mem _ hq))

/-!
## Boundary safety of the table rewrite (C6)
-/

/-- C6.  Boundary safety: rewriting table `order` to `orders_v2` leaves
`reorder_log` unchanged; in general, when every occurrence of a (word-only,
nonempty) old name in the text is embedded in a longer word — that is, no
maximal word run of the text equals the old name case-insensitively — the
table rewrite leaves the text unchanged. -/
theorem C6_boundary_safety :
    applyTableMappings [("order", "orders_v2")] "SELECT id FROM reorder_log" =
      "SELECT id FROM reorder_log" ∧
    (∀ (old new s : String), old.data ≠ [] → old.data.all isWordChar = true →
      (∀ r ∈ runs s.data, lowerL r ≠ lowerL old.data) →
      applyTableMappings [(old, new)] s = s) := by
  constructor
  · decide
  · intro old new s h1 h2 h3
    show reSubTok old new s = s
    have hdata : (reSubTok old new s).data =
        ((runs s.data).map (replRun old.data new.data)).flatten :=
      reSubTok_runs old new s h1 h2
    have hmapid : ∀ r ∈ runs s.data, replRun old.data new.data r = r := by
      intro r hr
      unfold replRun
      rw [if_neg]
      intro hx
      exact h3 r hr (eq_of_beq hx)
    apply String.ext
    rw [hdata, List.map_congr_left hmapid, List.map_id', runs_flatten]

/-- Witness for the general part of C6 at the concrete text of the claim. -/
theorem C6_boundary_safety_witness :
    (("order" : String).data ≠ [] ∧ ("order" : String).data.all isWordChar = true ∧
      (∀ r ∈ runs ("SELECT id FROM reorder_log" : String).data,
        lowerL r ≠ lowerL ("order" : String).data)) ∧
    applyTableMappings [("order", "orders_v2")] "SELECT id FROM reorder_log" =
      "SELECT id FROM reorder_log" :=
  ⟨⟨by decide, by decide, by decide⟩,
    C6_boundary_safety.2 "order" "orders_v2" "SELECT id FROM reorder_log"
      (by decide) (by decide) (by decide)⟩

/-!
## Idempotence of the correction engine (C1)
-/

/-- C1 (amended).  Idempotence of the correction engine holds for mapping sets
whose table rules use nonempty identifier (word-character-only) names with no
case-insensitive old/new name collision, on texts containing no dot: applying
`apply_corrections` twice equals applying it once.  (On texts with qualified
dotted references the alias-qualified column pass breaks idempotence even
without collisions — see the counterexample.) -/
theorem C1_idempotence_amended (tm : List (String × String))
    (cm : List (String × List (String × String))) (s : String)
    (hnames : ∀ p ∈ tm, p.1.data ≠ [] ∧ p.1.data.all isWordChar = true ∧
      p.2.data ≠ [] ∧ p.2.data.all isWordChar = true)
    (hdisj : ∀ p ∈ tm, ∀ q ∈ tm, lowerL p.1.data ≠ lowerL q.2.data)
    (hdot : '.' ∉ s.data) :
    applyCorrections tm cm (applyCorrections tm cm s) = applyCorrections tm cm s := by
  have hTdot : '.' ∉ (applyTableMappings tm s).data := by
    intro hx
    rcases applyTableMappings_chars tm s '.' hx with hy | ⟨p, hp, hy⟩
    · exact hdot hy
    · have hall := (hnames p hp).2.2.2
      have hw := List.all_eq_true.mp hall '.' hy
      exact absurd hw (by decide)
  have hTok : ∀ p ∈ tm, hasTokFrom p.1.data none (applyTableMappings tm s).data = false := by
    intro p hp
    cases hh : hasTokFrom p.1.data none (applyTableMappings tm s).data
    · rfl
    · exfalso
      obtain ⟨h1, h2, _, _⟩ := hnames p hp
      rcases runAlt_of_runs s.data with ⟨w, hw⟩
      have halt : runAlt w (tableRunPass tm (runs s.data)) = true :=
        tableRunPass_alt tm hnames _ w hw
      have hflat : (applyTableMappings tm s).data =
        (tableRunPass tm (runs s.data)).flatten := (applyTableMappings_data tm hnames s).1
      rw [hflat] at hh
      rcases hasTok_flatten p.1.data h2 h1 _ w none halt (fun _ => rfl) hh
        with ⟨r, hr, hreq⟩
      exact tableRunPass_noTok tm hdisj (runs s.data) p hp r hr hreq
  have hfc : ∀ p ∈ tm, fromCheckStr p.1 (applyTableMappings tm s) = false := by
    intro p hp
    cases hh : fromCheckStr p.1 (applyTableMappings tm s)
    · rfl
    · exfalso
      have himp := fromCheckGo_imp_hasTok p.1.data (applyTableMappings tm s).data none hh
      rw [hTok p hp] at himp
      cases himp
  have hout1 : applyCorrections tm cm s = applyTableMappings tm s := by
    unfold applyCorrections
    exact applyColumnMappings_id tm cm _ hTdot hfc
  rw [hout1]
  show applyColumnMappings tm cm (applyTableMappings tm (applyTableMappings tm s)) = _
  rw [applyTableMappings_id tm _ hTok]
  exact applyColumnMappings_id tm cm _ hTdot hfc

/-- C1 counterexample.  The claim fails as stated even for a collision-free
mapping set with identifier names (olds `t`, `a`; news `u`, `x`; all four
pairwise distinct even case-insensitively): on `q.a.a` the alias-qualified
column pass consumes the overlapping `q.a` match, leaving `q.x.a` after one
application, and the freshly written `x` then qualifies the second `.a` so a
second application produces `q.x.x`. -/
theorem C1_idempotence_counterexample :
    applyCorrections [("t", "u")] [("u", [("a", "x")])]
        (applyCorrections [("t", "u")] [("u", [("a", "x")])] "q.a.a") ≠
      applyCorrections [("t", "u")] [("u", [("a", "x")])] "q.a.a" ∧
    applyCorrections [("t", "u")] [("u", [("a", "x")])] "q.a.a" = "q.x.a" ∧
    applyCorrections [("t", "u")] [("u", [("a", "x")])] "q.x.a" = "q.x.x" := by
  decide

/-- Witness for the amended C1 at a concrete mapping set and text. -/
theorem C1_idempotence_amended_witness :
    ((∀ p ∈ [(("customers" : String), ("client" : String))],
        p.1.data ≠ [] ∧ p.1.data.all isWordChar = true ∧
        p.2.data ≠ [] ∧ p.2.data.all isWordChar = true) ∧
      (∀ p ∈ [(("customers" : String), ("client" : String))],
        ∀ q ∈ [(("customers" : String), ("client" : String))],
        lowerL p.1.data ≠ lowerL q.2.data) ∧
      '.' ∉ ("SELECT cust_id FROM customers" : String).data) ∧
    applyCorrections [("customers", "client")] [("client", [("cust_id", "client_id")])]
        (applyCorrections [("customers", "client")]
          [("client", [("cust_id", "client_id")])] "SELECT cust_id FROM customers") =
      applyCorrections [("customers", "client")] [("client", [("cust_id", "client_id")])]
        "SELECT cust_id FROM customers" :=
  ⟨⟨by decide, by decide, by decide⟩,
    C1_idempotence_amended [("customers", "client")]
      [("client", [("cust_id", "client_id")])] "SELECT cust_id FROM customers"
      (by decide) (by decide) (by decide)⟩

end SqlDash
